import Mathlib

/-!
Verification of the BitMagic `bvector<>` container (src/src/bm.h) and the
XOR-filter utilities (src/src/bmxor.h) against its natural-language
specification.

The development shallowly embeds the bit-vector façade.  A `bvector` owns a
two-level tree of 65,536-bit blocks; each block is stored as NULL (all
zeros), a FULL sentinel (all ones), a dense bit-block or a run-length GAP
block.  The specification's own invariants (§3) make these representations
observationally equivalent to the set of one-bit positions they hold, and
every block-level primitive of §4.1/§4.2 is contracted to compute the
corresponding boolean-algebra result, so the embedding models a vector by

  * `isInit` — the result of `blockman_.is_init()` (a tree has been
    allocated);
  * `size`   — the logical size in bits (`size_`);
  * `bits`   — the finite set of positions whose bit is 1.

Block-level primitives (`bmfunc.h`, `bmblocks.h`, `bmconst.h`, `bmrs.h` are
not part of the sources; only `bm.h` and `bmxor.h` are) are modelled from
the specification where needed; each such definition carries a
`Modelled from the spec:` note.  Everything taken from `bm.h`/`bmxor.h`
cites the line range it translates.
-/

namespace BM

/-- Modelled from the spec: §3 fixes the addressable space at `2^W` with
`W = 32` for the default build; `bm::id_max` (bmconst.h, not in the
sources) is the number of addressable positions, `0xFFFFFFFF`.  Valid bit
indices are `0 ≤ n < id_max`. -/
def id_max : ℕ := 4294967295

/-- Modelled from the spec: §3, a block holds `B = 65,536` bits
(`bm::gap_max_bits`). -/
def gap_max_bits : ℕ := 65536

/-- Modelled from the spec: §3, position decomposition by bit shift;
`n >> set_block_shift` is the logical block index. -/
def set_block_shift : ℕ := 16

/-- Modelled from the spec: §3, low bits of a position address the bit
inside its block. -/
def set_block_mask : ℕ := 65535

/-- Modelled from the spec: §3, a sub-array holds `S = 256` blocks. -/
def set_sub_array_size : ℕ := 256

/-- Modelled from the spec: one top-level sub-array spans
`B·S = 16,777,216` bit positions (`bm::bits_in_array`). -/
def bits_in_array : ℕ := 16777216

/-- Error codes of `BM_ASSERT_THROW` / `BM_THROW` (bmdef.h is not in the
sources).  Modelled from the spec: §7 lists range errors and allocation
failure as the error taxonomy. -/
inductive BmError where
  | range
  | badAlloc
deriving DecidableEq, Repr

/-- State of one `bm::bvector<>`: translation of the data members
`blockman_` initialisation state, `size_`, and the observable content of
the block tree (bm.h, class bvector).  The block tree itself (NULL / FULL
/ bit-block / GAP tagged pointers) is represented by the set of one-bit
positions it stores, which is the observational quotient fixed by the
invariants of spec §3. -/
structure BVector where
  isInit : Bool
  size : ℕ
  bits : Finset ℕ
deriving DecidableEq

/-- Translation of `blockman_.deinit_tree()`: frees the whole tree, so the
vector holds no bits and is uninitialised afterwards.  `size_` is not
touched. -/
def deinit_tree (bv : BVector) : BVector :=
  { bv with isInit := false, bits := ∅ }

/-- Translation of `blockman_.init_tree()` (allocate an empty top array). -/
def init_tree (bv : BVector) : BVector :=
  { bv with isInit := true }

/-- Translation of `bvector::clear(bool free_mem)` (bm.h:1589-1592):
`blockman_.set_all_zero(free_mem)` zeroes every block. -/
def clear (bv : BVector) (_free_mem : Bool) : BVector :=
  { bv with bits := ∅ }

/-- Translation of `bvector::get_bit(n)` (bm.h:3076-3105): NULL block reads
0, FULL reads 1, GAP and bit blocks test the stored bit — i.e. membership
in the stored set. -/
def get_bit (bv : BVector) (n : ℕ) : Bool :=
  decide (n ∈ bv.bits)

/-- Translation of `bvector::clear_range_no_check(left, right)`: removes
every position in `[left, right]`. -/
def clear_range_no_check (s : Finset ℕ) (left right : ℕ) : Finset ℕ :=
  s.filter (fun p => ¬(left ≤ p ∧ p ≤ right))

/-- Translation of `bvector::set_range_no_check(left, right)`: sets every
position in `[left, right]`. -/
def set_range_no_check (s : Finset ℕ) (left right : ℕ) : Finset ℕ :=
  s ∪ Finset.Icc left right

/-- Translation of `bvector::resize(new_size)` (bm.h:2539-2555): growing
initialises the tree and reserves space (content unchanged); shrinking
clears the tail `[new_size, size_-1]` first. -/
def resize (bv : BVector) (new_size : ℕ) : BVector :=
  if bv.size = new_size then bv
  else if bv.size < new_size then
    { bv with isInit := true, size := new_size }
  else
    { bv with bits := clear_range_no_check bv.bits new_size (bv.size - 1),
              size := new_size }

/-- Translation of `bvector::set_range(left, right, value)`
(bm.h:2443-2475).  The order of the guards follows the source: the
uninitialised/no-op test comes first, then descending bounds recurse with
the bounds swapped, then `BM_ASSERT_THROW(right < bm::id_max)`, then the
resize-on-demand and the actual range write. -/
def set_range (bv : BVector) (left right : ℕ) (value : Bool) :
    Except BmError BVector :=
  if ¬bv.isInit ∧ ¬value then .ok bv
  else if right < left then set_range bv right left value
  else if ¬(right < id_max) then .error .range
  else
    let bv' := if right ≥ bv.size then
                 resize bv (if right = id_max then id_max else right + 1)
               else bv
    if value then
      .ok { bv' with isInit := true,
                     bits := set_range_no_check bv'.bits left right }
    else
      .ok { bv' with bits := clear_range_no_check bv'.bits left right }
termination_by (if right < left then 1 else 0)
decreasing_by simp_all [Nat.not_lt.mpr (Nat.le_of_lt (by assumption))]

/-- Translation of `bvector::set_bit_no_check(n, val)` (bm.h:3624-3674):
writes bit `n` and returns whether the stored state actually changed. -/
def set_bit_no_check (bv : BVector) (n : ℕ) (val : Bool) : Bool × BVector :=
  (get_bit bv n != val,
   { bv with bits := if val then insert n bv.bits else bv.bits.erase n })

/-- Translation of `bvector::set_bit(n, val)` (bm.h:3546-3559): range
assertion against `bm::id_max`, lazy tree initialisation, resize to `n+1`
whenever `n >= size_`, then the unchecked write. -/
def set_bit (bv : BVector) (n : ℕ) (val : Bool) :
    Except BmError (Bool × BVector) :=
  if ¬(n < id_max) then .error .range
  else
    let bv₁ := if ¬bv.isInit then init_tree bv else bv
    let bv₂ := if n ≥ bv₁.size then
                 resize bv₁ (if n = id_max then id_max else n + 1)
               else bv₁
    .ok (set_bit_no_check bv₂ n val)

/-- Translation of `bvector::set(n, val)` (bm.h:3508-3512): forwards to
`set_bit` and returns the vector. -/
def set (bv : BVector) (n : ℕ) (val : Bool) : Except BmError BVector :=
  (set_bit bv n val).map Prod.snd

/-- Translation of `bvector::copy_range_no_check(bvect, left, right)`
(bm.h:6538-6562): `blockman_.copy` clones the blocks covering
`[left >> 16, right >> 16]`, then the flanks outside `[left, right]` are
cleared (the lower flank only down to one block below `left`, exactly as
the source does). -/
def copy_range_no_check (dest bvect : BVector) (left right : ℕ) :
    Except BmError BVector :=
  if ¬(right < id_max) then .error .range
  else
    let nblock_left := left >>> set_block_shift
    let nblock_right := right >>> set_block_shift
    let copied := bvect.bits.filter
      (fun p => nblock_left ≤ p >>> set_block_shift ∧
                p >>> set_block_shift ≤ nblock_right)
    let lowCleared :=
      if left ≠ 0 then
        let from0 := if (left + gap_max_bits) % 2 ^ 32 ≥ left then 0
                     else left - gap_max_bits
        clear_range_no_check copied from0 (left - 1)
      else copied
    let highCleared :=
      if right < id_max - 1 then
        clear_range_no_check lowCleared (right + 1) (id_max - 1)
      else lowCleared
    .ok { dest with isInit := true, bits := highCleared }

/-- Translation of `bvector::copy_range(bvect, left, right)`
(bm.h:6513-6532): an uninitialised source clears the destination;
otherwise the destination tree is re-initialised, descending bounds are
swapped with `bm::xor_swap`, and the work is done by
`copy_range_no_check`. -/
def copy_range (dest bvect : BVector) (left right : ℕ) :
    Except BmError BVector :=
  if ¬bvect.isInit then .ok (clear dest true)
  else
    let dest' := if dest.isInit then deinit_tree dest else dest
    if left > right then copy_range_no_check dest' bvect right left
    else copy_range_no_check dest' bvect left right

/-- C10: for every pair of positions with `right < left`, `set_range` and
`copy_range` do not fail on the inverted bounds and behave exactly as the
same call with the two bounds in ascending order. -/
theorem swapped_bounds_ok (bv dest src : BVector) (left right : ℕ)
    (value : Bool) (h : right < left) :
    set_range bv left right value = set_range bv right left value ∧
    copy_range dest src left right = copy_range dest src right left := by
  constructor
  · rw [set_range]
    have hnl : ¬ left < right := Nat.not_lt.mpr (Nat.le_of_lt h)
    by_cases hinit : ¬bv.isInit ∧ ¬value
    · rw [set_range]
      simp [hinit]
    · simp only [if_neg hinit, if_pos h]
  · unfold copy_range
    by_cases hsrc : ¬src.isInit
    · simp [hsrc]
    · have hgt : left > right := h
      have hngt : ¬ right > left := Nat.not_lt.mpr (Nat.le_of_lt h)
      simp [hsrc, hgt, hngt]

/-- Witness for `swapped_bounds_ok` at concrete inputs. -/
theorem swapped_bounds_ok_witness :
    (7 : ℕ) < 9 ∧
    (set_range { isInit := true, size := 16, bits := ∅ } 9 7 true =
       set_range { isInit := true, size := 16, bits := ∅ } 7 9 true ∧
     copy_range { isInit := false, size := 4, bits := ∅ }
       { isInit := true, size := 16, bits := {3} } 9 7 =
       copy_range { isInit := false, size := 4, bits := ∅ }
         { isInit := true, size := 16, bits := {3} } 7 9) :=
  ⟨by decide,
   swapped_bounds_ok { isInit := true, size := 16, bits := ∅ }
     { isInit := false, size := 4, bits := ∅ }
     { isInit := true, size := 16, bits := {3} } 9 7 true (by decide)⟩

/-- C2 counterexample: a single-bit write at position `10 ≥ size() = 5`
does not fail; it resizes the vector to 11 bits and sets the bit, so both
the size and the content change. -/
theorem set_bit_beyond_size_modifies :
    set_bit { isInit := true, size := 5, bits := ∅ } 10 true =
      .ok (true, { isInit := true, size := 11, bits := {10} }) ∧
    ¬ (set_bit { isInit := true, size := 5, bits := ∅ } 10 true =
        .ok (false, { isInit := true, size := 5, bits := ∅ })) := by
  constructor
  · rfl
  · intro hc
    have h1 : set_bit { isInit := true, size := 5, bits := ∅ } 10 true =
        .ok (true, { isInit := true, size := 11, bits := {10} }) := rfl
    rw [h1] at hc
    have h2 := Except.ok.inj hc
    simp at h2

/-- C2 (amended): a single-bit write at `n ≥ size()` succeeds after
resizing the vector to `n+1` bits (for `n < id_max`); only `n ≥ id_max`
fails, with a range error and no modification. -/
theorem set_bit_beyond_size (bv : BVector) (n : ℕ) (val : Bool)
    (h : bv.size ≤ n) :
    (n < id_max →
      set_bit bv n val =
        .ok (get_bit bv n != val,
             { isInit := true, size := n + 1,
               bits := if val then insert n bv.bits else bv.bits.erase n })) ∧
    (id_max ≤ n → set_bit bv n val = .error .range) := by
  constructor
  · intro hlt
    have hne : n ≠ id_max := Nat.ne_of_lt hlt
    have hge : n ≥ (if ¬bv.isInit then init_tree bv else bv).size := by
      by_cases hi : bv.isInit <;> simp [init_tree, hi, h]
    have hsz : (if ¬bv.isInit then init_tree bv else bv).size ≠ n + 1 := by
      by_cases hi : bv.isInit <;>
        simp [init_tree, hi] <;> omega
    have hlt' : (if ¬bv.isInit then init_tree bv else bv).size < n + 1 := by
      by_cases hi : bv.isInit <;> simp [init_tree, hi] <;> omega
    simp only [set_bit, if_pos hlt, if_neg (by exact not_not.mpr hlt)]
    rw [if_pos hge, if_neg hne, resize, if_neg hsz, if_pos hlt']
    by_cases hi : bv.isInit <;>
      simp [init_tree, hi, set_bit_no_check, get_bit]
  · intro hge
    have : ¬ n < id_max := Nat.not_lt.mpr hge
    simp [set_bit, this]

/-- Witness for `set_bit_beyond_size` at a concrete input. -/
theorem set_bit_beyond_size_witness :
    ({ isInit := true, size := 5, bits := ∅ } : BVector).size ≤ 10 ∧
    ((10 < id_max →
      set_bit { isInit := true, size := 5, bits := ∅ } 10 false =
        .ok (get_bit { isInit := true, size := 5, bits := ∅ } 10 != false,
             { isInit := true, size := 11,
               bits := if false then
                   insert 10 ({ isInit := true, size := 5, bits := ∅ } :
                     BVector).bits
                 else (∅ : Finset ℕ).erase 10 })) ∧
     (id_max ≤ 10 →
       set_bit { isInit := true, size := 5, bits := ∅ } 10 false =
         .error .range)) :=
  ⟨by decide,
   set_bit_beyond_size { isInit := true, size := 5, bits := ∅ } 10 false
     (by decide)⟩

/-- Invariant of the C++ object: a vector whose block tree was never
initialised holds no bits (`blockman_.is_init() == false` means there is
no top array at all). -/
def WellFormed (bv : BVector) : Prop :=
  bv.isInit = false → bv.bits = ∅

/-- Translation of `bvector::combine_operation_or` (bm.h:5077-5136), the
two-operand `this |= bv`: an uninitialised argument is a no-op; otherwise
`size_` becomes the maximum and each block of `bv` is OR-merged into the
corresponding block of `this` (per-block handlers
`combine_operation_block_or`; the block primitives of bmfunc.h are
contracted by spec §4.1 to boolean OR of the block contents). -/
def combine_operation_or (this bv : BVector) : BVector :=
  if ¬bv.isInit then this
  else { isInit := true, size := max this.size bv.size,
         bits := this.bits ∪ bv.bits }

/-- Translation of `bvector::combine_operation_xor` (bm.h:5148-5228) for
two distinct vectors: uninitialised argument is a no-op, an uninitialised
`this` becomes a copy of `bv` (`*this = bv`), otherwise blocks are
XOR-merged. -/
def combine_operation_xor (this bv : BVector) : BVector :=
  if ¬bv.isInit then this
  else if ¬this.isInit then bv
  else { isInit := true, size := max this.size bv.size,
         bits := (this.bits \ bv.bits) ∪ (bv.bits \ this.bits) }

/-- Translation of `bvector::combine_operation_xor` (bm.h:5148-5228) when
the argument is the vector itself (`&bv == this`): every top slot then
compares pointer-equal to itself, so the loop hits
`if (blk_blk == blk_blk_arg)` (bm.h:5176-5181) for every `i` — a top
sub-array stored as the FULL sentinel is reset to 0, any other sub-array
is skipped unchanged.  `fullTops` is the set of top indices the
destination keeps as the FULL sentinel (representation state that the
bit-content quotient does not determine). -/
def combine_operation_xor_self (this : BVector) (fullTops : Finset ℕ) :
    BVector :=
  { this with bits := this.bits.filter (fun p => p / bits_in_array ∉ fullTops) }

/-- Translation of `bvector::combine_operation_and` (bm.h:5244-5311): an
uninitialised `this` stays empty, an uninitialised argument clears `this`
(`clear(true)`), otherwise blocks are AND-merged. -/
def combine_operation_and (this bv : BVector) : BVector :=
  if ¬this.isInit then this
  else if ¬bv.isInit then clear this true
  else { isInit := true, size := max this.size bv.size,
         bits := this.bits ∩ bv.bits }

/-- Translation of `bvector::combine_operation_sub` (bm.h:5324-5381):
either operand uninitialised is a no-op, otherwise blocks are
AND-NOT-merged. -/
def combine_operation_sub (this bv : BVector) : BVector :=
  if ¬this.isInit ∨ ¬bv.isInit then this
  else { isInit := true, size := max this.size bv.size,
         bits := this.bits \ bv.bits }

/-- Translation of the three-operand `bvector::bit_or(bv1, bv2, opt_mode)`
(bm.h:4701-4784).  The pointer comparisons `&bv1 == &bv2`,
`this == &bv1`, `this == &bv2` are passed as the flags `alias12`,
`this1`, `this2`.  The source re-initialises `this`
(`blockman_.deinit_tree()`) before the alias checks; the generic path
merges the two argument trees block by block (`combine_operation_block_or`
per (i,j), contracted to boolean OR).  `opt_mode` only affects block
compression, not content, and is omitted. -/
def bit_or3 (dest bv1 bv2 : BVector) (alias12 this1 this2 : Bool) : BVector :=
  let d := if dest.isInit then deinit_tree dest else dest
  if alias12 then combine_operation_or d bv2
  else if this1 then combine_operation_or d bv2
  else if this2 then combine_operation_or d bv1
  else { isInit := true, size := max bv1.size bv2.size,
         bits := bv1.bits ∪ bv2.bits }

/-- Translation of the three-operand `bvector::bit_xor(bv1, bv2, opt_mode)`
(bm.h:4788-4882): deinit first, `&bv1 == &bv2` yields the empty result,
`this`-aliases fall back to the two-operand form, an uninitialised operand
makes the result a copy of the other, and the generic path XOR-merges the
trees. -/
def bit_xor3 (dest bv1 bv2 : BVector) (alias12 this1 this2 : Bool) : BVector :=
  let d := if dest.isInit then deinit_tree dest else dest
  if alias12 then d
  else if this1 then combine_operation_xor d bv2
  else if this2 then combine_operation_xor d bv1
  else if ¬bv1.isInit then bv2
  else if ¬bv2.isInit then bv1
  else { isInit := true, size := max bv1.size bv2.size,
         bits := (bv1.bits \ bv2.bits) ∪ (bv2.bits \ bv1.bits) }

/-- Translation of the three-operand `bvector::bit_and(bv1, bv2, opt_mode)`
(bm.h:4886-4975).  Unlike the other three forms, the alias checks come
BEFORE `blockman_.deinit_tree()`: `&bv1 == &bv2` immediately runs the
two-operand `this->bit_or(bv1)` on the destination with its prior
contents still in place. -/
def bit_and3 (dest bv1 bv2 : BVector) (alias12 this1 this2 : Bool) : BVector :=
  if alias12 then combine_operation_or dest bv1
  else if this1 then combine_operation_and dest bv2
  else if this2 then combine_operation_and dest bv1
  else
    let d := if dest.isInit then deinit_tree dest else dest
    if ¬bv1.isInit ∨ ¬bv2.isInit then d
    else { isInit := true, size := max bv1.size bv2.size,
           bits := bv1.bits ∩ bv2.bits }

/-- Translation of the three-operand `bvector::bit_sub(bv1, bv2, opt_mode)`
(bm.h:4980-5073): deinit first, `&bv1 == &bv2` yields the empty result,
`this`-aliases fall back to the two-operand form, `bv1` uninitialised
yields the empty result, `bv2` uninitialised copies `bv1` in via
`this->bit_or(bv1)`, and the generic path AND-NOT-merges the trees. -/
def bit_sub3 (dest bv1 bv2 : BVector) (alias12 this1 this2 : Bool) : BVector :=
  let d := if dest.isInit then deinit_tree dest else dest
  if alias12 then d
  else if this1 then combine_operation_sub d bv2
  else if this2 then combine_operation_sub d bv1
  else if ¬bv1.isInit then d
  else if ¬bv2.isInit then combine_operation_or d bv1
  else { isInit := true, size := max bv1.size bv2.size,
         bits := bv1.bits \ bv2.bits }

/-- Helper: a well-formed uninitialised vector holds no bits. -/
theorem wf_bits_empty (bv : BVector) (h : WellFormed bv)
    (hi : ¬ bv.isInit = true) : bv.bits = ∅ :=
  h (by simpa using hi)

/-- C1 counterexample: the aliased three-operand AND, `this := a AND a`
with `&bv1 == &bv2`, runs `this->bit_or(bv1)` before any
re-initialisation (bm.h:4892-4896), so the result keeps the destination's
prior contents: two destinations that differ only in prior contents
produce different results for the same `bv1 = bv2`. -/
theorem bit_and3_alias_keeps_dest :
    (bit_and3 { isInit := true, size := 16, bits := {0} }
       { isInit := true, size := 16, bits := {1} }
       { isInit := true, size := 16, bits := {1} } true false false).bits
      = {0, 1} ∧
    (bit_and3 { isInit := true, size := 16, bits := ∅ }
       { isInit := true, size := 16, bits := {1} }
       { isInit := true, size := 16, bits := {1} } true false false).bits
      = {1} ∧
    ({0, 1} : Finset ℕ) ≠ {1} := by
  refine ⟨by decide, by decide, by decide⟩

/-- C1 (amended): `bit_or`, `bit_xor` and `bit_sub` re-initialise the
destination first and their result is a function of `bv1` and `bv2` alone
(also when `bv1` and `bv2` are the same object); `bit_and` does so except
when `bv1` and `bv2` are the same object distinct from the destination —
there the destination is not re-initialised and the result is its prior
contents OR-merged with `bv1`. -/
theorem three_operand_reinitialises (dest bv1 bv2 : BVector)
    (hd : WellFormed dest) (h1 : WellFormed bv1) (h2 : WellFormed bv2) :
    (bit_or3 dest bv1 bv2 false false false).bits = bv1.bits ∪ bv2.bits ∧
    (bit_xor3 dest bv1 bv2 false false false).bits =
      (bv1.bits \ bv2.bits) ∪ (bv2.bits \ bv1.bits) ∧
    (bit_sub3 dest bv1 bv2 false false false).bits = bv1.bits \ bv2.bits ∧
    (bit_and3 dest bv1 bv2 false false false).bits = bv1.bits ∩ bv2.bits ∧
    (bv1 = bv2 →
      (bit_or3 dest bv1 bv2 true false false).bits = bv1.bits ∪ bv2.bits ∧
      (bit_xor3 dest bv1 bv2 true false false).bits = ∅ ∧
      (bit_sub3 dest bv1 bv2 true false false).bits = ∅ ∧
      (bit_and3 dest bv1 bv2 true false false).bits =
        dest.bits ∪ bv1.bits) := by
  have hD : (if dest.isInit then deinit_tree dest else dest).bits = ∅ := by
    by_cases h : dest.isInit
    · simp [h, deinit_tree]
    · simpa [h] using wf_bits_empty dest hd h
  refine ⟨rfl, ?_, ?_, ?_, ?_⟩
  · by_cases hi1 : bv1.isInit <;> by_cases hi2 : bv2.isInit
    · simp [bit_xor3, hi1, hi2]
    · simp [bit_xor3, hi1, hi2, wf_bits_empty bv2 h2 hi2]
    · simp [bit_xor3, hi1, hi2, wf_bits_empty bv1 h1 hi1]
    · simp [bit_xor3, hi1, hi2, wf_bits_empty bv1 h1 hi1,
            wf_bits_empty bv2 h2 hi2]
  · by_cases hi1 : bv1.isInit <;> by_cases hi2 : bv2.isInit
    · simp [bit_sub3, hi1, hi2]
    · simp [bit_sub3, hi1, hi2, combine_operation_or, hD,
            wf_bits_empty bv2 h2 hi2]
    · simp [bit_sub3, hi1, hi2, hD, wf_bits_empty bv1 h1 hi1]
    · simp [bit_sub3, hi1, hi2, hD, wf_bits_empty bv1 h1 hi1,
            wf_bits_empty bv2 h2 hi2]
  · by_cases hi1 : bv1.isInit <;> by_cases hi2 : bv2.isInit
    · simp [bit_and3, hi1, hi2]
    · simp [bit_and3, hi1, hi2, hD, wf_bits_empty bv2 h2 hi2]
    · simp [bit_and3, hi1, hi2, hD, wf_bits_empty bv1 h1 hi1]
    · simp [bit_and3, hi1, hi2, hD, wf_bits_empty bv1 h1 hi1]
  · intro heq
    subst heq
    refine ⟨?_, ?_, ?_, ?_⟩
    · by_cases hi1 : bv1.isInit
      · simp [bit_or3, combine_operation_or, hi1, hD]
      · simp [bit_or3, combine_operation_or, hi1, hD,
              wf_bits_empty bv1 h1 hi1]
    · simp [bit_xor3, hD]
    · simp [bit_sub3, hD]
    · by_cases hi1 : bv1.isInit
      · simp [bit_and3, combine_operation_or, hi1]
      · simp [bit_and3, combine_operation_or, hi1, wf_bits_empty bv1 h1 hi1]

/-- Witness for `three_operand_reinitialises` at concrete inputs. -/
theorem three_operand_reinitialises_witness :
    (WellFormed { isInit := true, size := 8, bits := {1, 2} } ∧
     WellFormed { isInit := true, size := 8, bits := {2, 3} }) ∧
    ((bit_or3 { isInit := true, size := 8, bits := {7} }
        { isInit := true, size := 8, bits := {1, 2} }
        { isInit := true, size := 8, bits := {2, 3} } false false false).bits
       = ({1, 2} : Finset ℕ) ∪ {2, 3} ∧
     (bit_xor3 { isInit := true, size := 8, bits := {7} }
        { isInit := true, size := 8, bits := {1, 2} }
        { isInit := true, size := 8, bits := {2, 3} } false false false).bits
       = (({1, 2} : Finset ℕ) \ {2, 3}) ∪ (({2, 3} : Finset ℕ) \ {1, 2}) ∧
     (bit_sub3 { isInit := true, size := 8, bits := {7} }
        { isInit := true, size := 8, bits := {1, 2} }
        { isInit := true, size := 8, bits := {2, 3} } false false false).bits
       = ({1, 2} : Finset ℕ) \ {2, 3} ∧
     (bit_and3 { isInit := true, size := 8, bits := {7} }
        { isInit := true, size := 8, bits := {1, 2} }
        { isInit := true, size := 8, bits := {2, 3} } false false false).bits
       = ({1, 2} : Finset ℕ) ∩ {2, 3} ∧
     (({ isInit := true, size := 8, bits := {1, 2} } : BVector) =
        { isInit := true, size := 8, bits := {2, 3} } →
      (bit_or3 { isInit := true, size := 8, bits := {7} }
         { isInit := true, size := 8, bits := {1, 2} }
         { isInit := true, size := 8, bits := {2, 3} } true false false).bits
        = ({1, 2} : Finset ℕ) ∪ {2, 3} ∧
      (bit_xor3 { isInit := true, size := 8, bits := {7} }
         { isInit := true, size := 8, bits := {1, 2} }
         { isInit := true, size := 8, bits := {2, 3} } true false false).bits
        = ∅ ∧
      (bit_sub3 { isInit := true, size := 8, bits := {7} }
         { isInit := true, size := 8, bits := {1, 2} }
         { isInit := true, size := 8, bits := {2, 3} } true false false).bits
        = ∅ ∧
      (bit_and3 { isInit := true, size := 8, bits := {7} }
         { isInit := true, size := 8, bits := {1, 2} }
         { isInit := true, size := 8, bits := {2, 3} } true false false).bits
        = ({7} : Finset ℕ) ∪ {1, 2})) :=
  ⟨⟨fun h => by simp_all, fun h => by simp_all⟩,
   three_operand_reinitialises
     { isInit := true, size := 8, bits := {7} }
     { isInit := true, size := 8, bits := {1, 2} }
     { isInit := true, size := 8, bits := {2, 3} }
     (fun h => by simp_all) (fun h => by simp_all) (fun h => by simp_all)⟩

/-- C3: three-operand algebra with an uninitialised ("empty") operand
degenerates to the defined cases `empty OR x = x`, `empty AND x = empty`
(either order), `empty SUB x = empty` and `x SUB empty = x`, for any
destination distinct from the operands. -/
theorem three_operand_empty_degenerates (dest x e : BVector)
    (hd : WellFormed dest) (hx : WellFormed x) (he : e.isInit = false)
    (heb : e.bits = ∅) :
    (bit_or3 dest e x false false false).bits = x.bits ∧
    (bit_or3 dest x e false false false).bits = x.bits ∧
    (bit_and3 dest e x false false false).bits = ∅ ∧
    (bit_and3 dest x e false false false).bits = ∅ ∧
    (bit_sub3 dest e x false false false).bits = ∅ ∧
    (bit_sub3 dest x e false false false).bits = x.bits := by
  have hD : (if dest.isInit then deinit_tree dest else dest).bits = ∅ := by
    by_cases h : dest.isInit
    · simp [h, deinit_tree]
    · simpa [h] using wf_bits_empty dest hd h
  refine ⟨?_, ?_, ?_, ?_, ?_, ?_⟩
  · simp [bit_or3, heb]
  · simp [bit_or3, heb]
  · simp [bit_and3, he, hD]
  · simp [bit_and3, he, hD]
  · simp [bit_sub3, he, hD]
  · by_cases hxi : x.isInit
    · simp [bit_sub3, he, hxi, combine_operation_or, hD]
    · simp [bit_sub3, he, hxi, hD, wf_bits_empty x hx hxi]

/-- Witness for `three_operand_empty_degenerates` at concrete inputs. -/
theorem three_operand_empty_degenerates_witness :
    (WellFormed { isInit := true, size := 8, bits := {4} } ∧
     ({ isInit := false, size := 8, bits := ∅ } : BVector).isInit = false ∧
     ({ isInit := false, size := 8, bits := ∅ } : BVector).bits = ∅) ∧
    ((bit_or3 { isInit := true, size := 8, bits := {7} }
        { isInit := false, size := 8, bits := ∅ }
        { isInit := true, size := 8, bits := {4} } false false false).bits
       = ({4} : Finset ℕ) ∧
     (bit_or3 { isInit := true, size := 8, bits := {7} }
        { isInit := true, size := 8, bits := {4} }
        { isInit := false, size := 8, bits := ∅ } false false false).bits
       = ({4} : Finset ℕ) ∧
     (bit_and3 { isInit := true, size := 8, bits := {7} }
        { isInit := false, size := 8, bits := ∅ }
        { isInit := true, size := 8, bits := {4} } false false false).bits
       = ∅ ∧
     (bit_and3 { isInit := true, size := 8, bits := {7} }
        { isInit := true, size := 8, bits := {4} }
        { isInit := false, size := 8, bits := ∅ } false false false).bits
       = ∅ ∧
     (bit_sub3 { isInit := true, size := 8, bits := {7} }
        { isInit := false, size := 8, bits := ∅ }
        { isInit := true, size := 8, bits := {4} } false false false).bits
       = ∅ ∧
     (bit_sub3 { isInit := true, size := 8, bits := {7} }
        { isInit := true, size := 8, bits := {4} }
        { isInit := false, size := 8, bits := ∅ } false false false).bits
       = ({4} : Finset ℕ)) :=
  ⟨⟨fun h => by simp_all, rfl, rfl⟩,
   three_operand_empty_degenerates
     { isInit := true, size := 8, bits := {7} }
     { isInit := true, size := 8, bits := {4} }
     { isInit := false, size := 8, bits := ∅ }
     (fun h => by simp_all) (fun h => by simp_all) rfl rfl⟩

/-- C4 counterexample: the two-operand self-XOR `a.bit_xor(a)` is not
empty — with `a = {5}` (whose representation has no FULL top sub-array,
hence `fullTops = ∅`) every top slot compares pointer-equal to itself and
is skipped, leaving `a` unchanged; and the three-operand
`this := a AND a` on a destination holding `{0}` yields `{0, 5}`, not
`a`. -/
theorem idempotence_counterexample :
    (combine_operation_xor_self { isInit := true, size := 16, bits := {5} }
       ∅).bits = {5} ∧
    ({5} : Finset ℕ) ≠ ∅ ∧
    (bit_and3 { isInit := true, size := 16, bits := {0} }
       { isInit := true, size := 16, bits := {5} }
       { isInit := true, size := 16, bits := {5} } true false false).bits
      = {0, 5} ∧
    ({0, 5} : Finset ℕ) ≠ {5} := by
  refine ⟨by decide, by decide, by decide, by decide⟩

/-- C4 (amended): `a OR a = a` and `a AND a = a` hold in both forms;
`a SUB a = empty` holds in both forms; `a XOR a = empty` holds in the
three-operand form, but the two-operand self-XOR leaves every block that
is not represented as a FULL top sub-array unchanged (in particular
`a.bit_xor(a) = a` whenever the representation has no FULL top
sub-array); and the three-operand `a AND a` OR-merges `a` into the
destination's prior contents instead of producing `a`. -/
theorem idempotence_amended (a dest : BVector) (hd : WellFormed dest)
    (ha : WellFormed a) :
    (combine_operation_or a a).bits = a.bits ∧
    (combine_operation_and a a).bits = a.bits ∧
    (combine_operation_sub a a).bits = ∅ ∧
    (combine_operation_xor_self a ∅).bits = a.bits ∧
    (bit_or3 dest a a true false false).bits = a.bits ∧
    (bit_and3 dest a a true false false).bits = dest.bits ∪ a.bits ∧
    (bit_sub3 dest a a true false false).bits = ∅ ∧
    (bit_xor3 dest a a true false false).bits = ∅ := by
  have hD : (if dest.isInit then deinit_tree dest else dest).bits = ∅ := by
    by_cases h : dest.isInit
    · simp [h, deinit_tree]
    · simpa [h] using wf_bits_empty dest hd h
  refine ⟨?_, ?_, ?_, ?_, ?_, ?_, ?_, ?_⟩
  · unfold combine_operation_or
    by_cases hi : a.isInit <;> simp [hi]
  · unfold combine_operation_and
    by_cases hi : a.isInit <;> simp [hi]
  · unfold combine_operation_sub
    by_cases hi : a.isInit
    · simp [hi]
    · simp [hi, wf_bits_empty a ha hi]
  · simp [combine_operation_xor_self]
  · by_cases hi : a.isInit
    · simp [bit_or3, combine_operation_or, hi, hD]
    · simp [bit_or3, combine_operation_or, hi, hD, wf_bits_empty a ha hi]
  · by_cases hi : a.isInit
    · simp [bit_and3, combine_operation_or, hi]
    · simp [bit_and3, combine_operation_or, hi, wf_bits_empty a ha hi]
  · simp [bit_sub3, hD]
  · simp [bit_xor3, hD]

/-- Witness for `idempotence_amended` at a concrete input. -/
theorem idempotence_amended_witness :
    WellFormed { isInit := true, size := 16, bits := {3, 9} } ∧
    ((combine_operation_or { isInit := true, size := 16, bits := {3, 9} }
        { isInit := true, size := 16, bits := {3, 9} }).bits
       = ({3, 9} : Finset ℕ) ∧
     (combine_operation_and { isInit := true, size := 16, bits := {3, 9} }
        { isInit := true, size := 16, bits := {3, 9} }).bits
       = ({3, 9} : Finset ℕ) ∧
     (combine_operation_sub { isInit := true, size := 16, bits := {3, 9} }
        { isInit := true, size := 16, bits := {3, 9} }).bits = ∅ ∧
     (combine_operation_xor_self
        { isInit := true, size := 16, bits := {3, 9} } ∅).bits
       = ({3, 9} : Finset ℕ) ∧
     (bit_or3 { isInit := true, size := 16, bits := {0} }
        { isInit := true, size := 16, bits := {3, 9} }
        { isInit := true, size := 16, bits := {3, 9} } true false false).bits
       = ({3, 9} : Finset ℕ) ∧
     (bit_and3 { isInit := true, size := 16, bits := {0} }
        { isInit := true, size := 16, bits := {3, 9} }
        { isInit := true, size := 16, bits := {3, 9} } true false false).bits
       = ({0} : Finset ℕ) ∪ {3, 9} ∧
     (bit_sub3 { isInit := true, size := 16, bits := {0} }
        { isInit := true, size := 16, bits := {3, 9} }
        { isInit := true, size := 16, bits := {3, 9} } true false false).bits
       = ∅ ∧
     (bit_xor3 { isInit := true, size := 16, bits := {0} }
        { isInit := true, size := 16, bits := {3, 9} }
        { isInit := true, size := 16, bits := {3, 9} } true false false).bits
       = ∅) :=
  ⟨fun h => by simp_all,
   idempotence_amended { isInit := true, size := 16, bits := {3, 9} }
     { isInit := true, size := 16, bits := {0} } (fun h => by simp_all)
     (fun h => by simp_all)⟩

/-- Translation of `bvector::insert(n, value)` (bm.h:4277-4450).  The
source increments `size_` (while below `bm::id_max`), handles the
uninitialised tree by a plain `set(n)` when `value` is true, and otherwise
walks the sub-arrays from block `n >> 16` upward, shifting each block up
by one bit and propagating the carry; at the last addressable block the
bit shifted into the top position is extracted as the returned carry and
cleared (bm.h:4433-4439).  The per-block primitives
(`bm::bit_block_insert`, `bm::gap_shift_r1`, `bm::bit_block_shift_r1_unr`,
bmfunc.h, not in the sources) are modelled from the spec: §4.1 "insert a
bit at position n; returns the carry bit shifted across the block
boundary" and §4.4 "carry propagates across block boundaries; on
last-block overflow the top bit is discarded"; their net effect over the
walk is that positions below `n` stay, `n` receives `value`, and every
position `p ≥ n` moves to `p+1` except the one that would leave the
address space. -/
def insert (bv : BVector) (n : ℕ) (value : Bool) :
    Except BmError (Bool × BVector) :=
  if ¬(n < id_max) then .error .range
  else
    let bv₁ := if bv.size < id_max then { bv with size := bv.size + 1 }
               else bv
    if ¬bv₁.isInit then
      if value then (set bv₁ n true).map (fun b => (false, b))
      else .ok (false, bv₁)
    else
      let carry := decide (id_max - 1 ∈ bv₁.bits)
      let shifted :=
        (bv₁.bits.filter (fun p => p < n)) ∪
        (if value then {n} else ∅) ∪
        ((bv₁.bits.filter (fun p => n ≤ p ∧ p + 1 < id_max)).image
          (fun p => p + 1))
      .ok (carry, { bv₁ with bits := shifted })

/-- Translation of `bvector::shift_right()` (bm.h:4259-4263): defined as
`insert(0, false)`. -/
def shift_right (bv : BVector) : Except BmError (Bool × BVector) :=
  insert bv 0 false

/-- C6 counterexample: a vector of size 1 with its bit at position
`size()-1 = 0` set.  `shift_right()` grows the vector to size 2, moves the
bit to position 1 and reports carry = 0, not carry = 1: the carry is only
produced when a bit is shifted out of the last addressable position
`id_max - 1`. -/
theorem shift_right_small_counterexample :
    (shift_right { isInit := true, size := 1, bits := {0} }).toOption.map
        (fun r => (r.1, r.2.size, r.2.bits)) = some (false, 2, {1}) ∧
    (false : Bool) ≠ true := by
  refine ⟨by decide, by decide⟩

/-- C6 (amended): `shift_right()` reports carry = 1 exactly when a set bit
occupies the last addressable position `id_max - 1`; a vector whose size
is `id_max` and whose bit at `size()-1 = id_max-1` is set reports
carry = 1, the size does not change, that bit is discarded, and every
other set position `p` moves to `p+1`.  For any smaller vector the set
bit at `size()-1` simply moves to position `size()` (with the size grown
by one) and the carry is 0. -/
theorem shift_right_carry (bv : BVector) (h1 : bv.isInit = true)
    (h2 : bv.size = id_max) (h3 : id_max - 1 ∈ bv.bits) :
    ∃ bv', shift_right bv = .ok (true, bv') ∧ bv'.size = id_max ∧
      (∀ q, q ∈ bv'.bits ↔ (1 ≤ q ∧ q < id_max ∧ q - 1 ∈ bv.bits)) := by
  have hsz : ¬ bv.size < id_max := by rw [h2]; exact Nat.lt_irrefl _
  have hres : shift_right bv = .ok (true,
      { bv with bits :=
          (bv.bits.filter (fun p => p < 0)) ∪
          ((if false then {0} else ∅) : Finset ℕ) ∪
          ((bv.bits.filter (fun p => 0 ≤ p ∧ p + 1 < id_max)).image
            (fun p => p + 1)) }) := by
    unfold shift_right insert
    rw [if_neg (not_not.mpr (by norm_num [id_max]))]
    simp only [if_neg hsz, h1, not_true, if_neg (by simp : ¬False)]
    simp [h3]
  refine ⟨_, hres, by simpa using h2, ?_⟩
  intro q
  simp only [Finset.mem_union, Finset.mem_filter, Finset.mem_image,
             Finset.not_mem_empty]
  constructor
  · rintro hmem
    rcases hmem with (⟨⟨hq, hlt⟩ | hq⟩ | ⟨p, ⟨hp, hple, hplt⟩, rfl⟩)
    · omega
    · simp at hq
    · refine ⟨by omega, by omega, by simpa using hp⟩
  · rintro ⟨hq1, hqlt, hqbit⟩
    right
    exact ⟨q - 1, ⟨hqbit, by omega, by omega⟩, by omega⟩

/-- Witness for `shift_right_carry` at a concrete input. -/
theorem shift_right_carry_witness :
    (({ isInit := true, size := id_max, bits := {id_max - 1} } :
        BVector).isInit = true ∧
     ({ isInit := true, size := id_max, bits := {id_max - 1} } :
        BVector).size = id_max ∧
     id_max - 1 ∈ ({ isInit := true, size := id_max,
                     bits := {id_max - 1} } : BVector).bits) ∧
    (∃ bv', shift_right { isInit := true, size := id_max,
                          bits := {id_max - 1} } = .ok (true, bv') ∧
       bv'.size = id_max ∧
       (∀ q, q ∈ bv'.bits ↔ (1 ≤ q ∧ q < id_max ∧
          q - 1 ∈ ({ isInit := true, size := id_max,
                     bits := {id_max - 1} } : BVector).bits))) :=
  ⟨⟨rfl, rfl, by decide⟩,
   shift_right_carry { isInit := true, size := id_max, bits := {id_max - 1} }
     rfl rfl (by decide)⟩

/-- State of `bvector<>::iterator_base` / `enumerator` observable for
validity (bm.h:232-346): the current absolute bit position; `bm::id_max`
marks the invalid state.  The bit-scan wave cache and the GAP cursor
(bm.h:317-331) only memoise positions of the owning vector and are not
needed to decide validity behaviour. -/
structure Enumerator where
  position : ℕ
deriving DecidableEq

/-- Translation of `iterator_base::valid()` (bm.h:273):
`position_ != bm::id_max`. -/
def iterator_valid (e : Enumerator) : Bool :=
  decide (e.position ≠ id_max)

/-- Translation of `iterator_base::invalidate()` (bm.h:279). -/
def invalidate (e : Enumerator) : Enumerator :=
  { e with position := id_max }

/-- Translation of `enumerator::go_up()` (bm.h:705-772), reached by
`advance()` and `operator++`.  The body opens with
`BM_ASSERT_THROW(this->valid(), BM_ERR_RANGE)`; `BM_ASSERT_THROW`
(bmdef.h, not in the sources) is modelled from the spec: §7 classifies an
out-of-range access as a range error that propagates as a structured
error (with assertions compiled out the source instead reads the stale
block descriptor — in neither build is the call a state-preserving
no-op).  Past the guard, the wave cache / GAP cursor walk
(bm.h:713-771) advances to the next stored position of the owning vector
and invalidates the enumerator when none is left; the cache decoding
primitives (`bm::bitscan_wave`, bmfunc.h, not in the sources) are
modelled from the spec §4.6 at that observable level. -/
def go_up (bv : BVector) (e : Enumerator) : Except BmError Enumerator :=
  if ¬ iterator_valid e then .error .range
  else
    let c := bv.bits.filter (fun p => e.position < p)
    if hc : c.Nonempty then .ok { position := c.min' hc }
    else .ok (invalidate e)

/-- C9 counterexample: advancing an invalid enumerator is not a no-op —
it signals a range error and in particular never returns the unchanged
enumerator. -/
theorem go_up_invalid_counterexample :
    go_up { isInit := true, size := 16, bits := {3} }
      { position := id_max } = .error .range ∧
    ∀ e' : Enumerator,
      go_up { isInit := true, size := 16, bits := {3} }
        { position := id_max } ≠ .ok e' := by
  have h : go_up { isInit := true, size := 16, bits := {3} }
      { position := id_max } = .error .range := by
    simp [go_up, iterator_valid]
  exact ⟨h, fun e' hc => by rw [h] at hc; exact Except.noConfusion hc⟩

/-- C9 (amended): `go_up()` on an enumerator whose `valid()` is false
signals `BM_ERR_RANGE` (it asserts validity as a precondition) instead of
returning the enumerator unchanged. -/
theorem go_up_invalid (bv : BVector) (e : Enumerator)
    (h : iterator_valid e = false) :
    go_up bv e = .error .range := by
  simp [go_up, h]

/-- Witness for `go_up_invalid` at a concrete input. -/
theorem go_up_invalid_witness :
    iterator_valid { position := id_max } = false ∧
    go_up { isInit := true, size := 16, bits := {3} }
      { position := id_max } = .error .range :=
  ⟨by decide,
   go_up_invalid { isInit := true, size := 16, bits := {3} }
     { position := id_max } (by decide)⟩

/-- Translation of `bm::xor_complement_match` (bmxor.h:36-43). -/
inductive XorComplementMatch where
  | e_no_xor_match
  | e_xor_match_GC
  | e_xor_match_BC
  | e_xor_match_iBC
  | e_xor_match_EQ
deriving DecidableEq, Repr

/-- Modelled from the spec: `bm::word_bitcount` (bmutil.h, not in the
sources) is the population count of one 32-bit word. -/
def word_bitcount (w : ℕ) : ℕ :=
  (List.range 32).countP (fun i => w.testBit i)

/-- Modelled from the spec: glossary, a block splits into 64 waves
(`bm::block_waves`). -/
def block_waves : ℕ := 64

/-- Modelled from the spec: glossary, one wave is 1024 bits = 32 × 32-bit
words (`bm::set_block_digest_wave_size`, in words). -/
def set_block_digest_wave_size : ℕ := 32

/-- Helper for C's unsigned 32-bit subtraction `a - b`. -/
def usub32 (a b : ℕ) : ℕ :=
  (a % 4294967296 + 4294967296 - b % 4294967296) % 4294967296

/-- Loop body of `bm::bit_block_xor_change32` (bmxor.h:73-94) for one
word beyond the first: the accumulator carries
`(gap_count, bit_count, w_prev)`. -/
def xor_change_step (acc : ℕ × ℕ × ℕ) (w0 : ℕ) : ℕ × ℕ × ℕ :=
  let gap_count := acc.1
  let bit_count := acc.2.1
  let w_prev := acc.2.2
  let bit_count := bit_count + word_bitcount w0
  let gap_count := gap_count + 1
  if w0 = 0 then
    (gap_count - (if w_prev = 0 then 1 else 0), bit_count, 0)
  else
    let w := w0 ^^^ (w0 >>> 1)
    let gap_count := gap_count + word_bitcount w
    let w_l := w0 % 2
    let gap_count := gap_count - (w0 >>> 31)
    let gap_count := gap_count - (if w_prev ^^^ w_l = 0 then 1 else 0)
    (gap_count, bit_count, w0 >>> 31)

/-- Translation of `bm::bit_block_xor_change32` (bmxor.h:52-98): GAP count
and bit count of the XOR of two word arrays of the given size.  The word
arrays are indexed functions (word `k` of the sub-block); the first word
is handled before the loop exactly as in the source. -/
def bit_block_xor_change32 (block xor_block : ℕ → ℕ) (size : ℕ) : ℕ × ℕ :=
  let w0 := (block 0) ^^^ (xor_block 0)
  let bit_count := word_bitcount w0
  let w := w0 ^^^ (w0 >>> 1)
  let gap_count := 1 + word_bitcount w - (w0 >>> 31)
  let st := (List.range (size - 1)).foldl
    (fun acc k => xor_change_step acc ((block (k + 1)) ^^^ (xor_block (k + 1))))
    (gap_count, bit_count, w0 >>> 31)
  (st.1, st.2.1)

/-- Modelled from the spec: `bm::calc_block_digest0` (bmfunc.h, not in the
sources) — §4.1 "digest-0: a 64-bit word whose bit i is 1 iff the i-th
wave of the block contains any set bit". -/
def calc_block_digest0 (block : ℕ → ℕ) : ℕ :=
  (List.range block_waves).foldl
    (fun d i =>
      if (List.range set_block_digest_wave_size).all
           (fun k => block (set_block_digest_wave_size * i + k) == 0)
      then d else d ||| (1 <<< i))
    0

/-- Translation of pass 1 of `bm::compute_xor_complexity_descr`
(bmxor.h:189-203): the XOR GAP/bit counts of wave `i`, stored through the
`(unsigned short)` casts of bmxor.h:201-202. -/
def sb_xor (block xor_block : ℕ → ℕ) (i : ℕ) : ℕ × ℕ :=
  let off := i * set_block_digest_wave_size
  let r := bit_block_xor_change32
    (fun k => block (off + k)) (fun k => xor_block (off + k))
    set_block_digest_wave_size
  (r.1 % 65536, r.2 % 65536)

/-- Accumulators of pass 2 of `bm::compute_xor_complexity_descr`
(bmxor.h:207-208). -/
structure XorPass2 where
  block_gc_gain : ℕ
  block_bc_gain : ℕ
  block_ibc_gain : ℕ
  gc_digest : ℕ
  bc_digest : ℕ
  ibc_digest : ℕ
deriving DecidableEq, Repr

/-- Translation of pass 2 of `bm::compute_xor_complexity_descr`
(bmxor.h:205-242): waves whose target sub-block is all zero (`d0` bit
set) are skipped; a wave whose XOR GAP count is ≤ 1 or strictly below the
target's GAP count feeds the GC gain, a strictly lower XOR bit count
feeds the BC gain, and a strictly lower XOR inverse bit count feeds the
iBC gain, each marking its digest. -/
def xor_descr_pass2 (block xor_block sb_gc sb_bc : ℕ → ℕ) : XorPass2 :=
  let d0 := (2 ^ 64 - 1) ^^^ calc_block_digest0 block
  let wave_max_bits := set_block_digest_wave_size * 32
  (List.range block_waves).foldl
    (fun acc i =>
      let dmask := 1 <<< i
      if d0 &&& dmask ≠ 0 then acc
      else
        let xor_gc := (sb_xor block xor_block i).1
        let acc₁ :=
          if xor_gc ≤ 1 then
            { acc with gc_digest := acc.gc_digest ||| dmask,
                       block_gc_gain := acc.block_gc_gain + sb_gc i }
          else if xor_gc < sb_gc i then
            { acc with gc_digest := acc.gc_digest ||| dmask,
                       block_gc_gain := acc.block_gc_gain + (sb_gc i - xor_gc) }
          else acc
        let xor_bc := (sb_xor block xor_block i).2
        let acc₂ :=
          if xor_bc < sb_bc i then
            { acc₁ with bc_digest := acc₁.bc_digest ||| dmask,
                        block_bc_gain := acc₁.block_bc_gain + (sb_bc i - xor_bc) }
          else acc₁
        let xor_ibc := usub32 wave_max_bits xor_bc
        let wave_ibc := usub32 wave_max_bits (sb_bc i)
        if xor_ibc < wave_ibc then
          { acc₂ with ibc_digest := acc₂.ibc_digest ||| dmask,
                      block_ibc_gain := acc₂.block_ibc_gain +
                        (wave_ibc - xor_ibc) }
        else acc₂)
    { block_gc_gain := 0, block_bc_gain := 0, block_ibc_gain := 0,
      gc_digest := 0, bc_digest := 0, ibc_digest := 0 }

/-- Translation of `bm::compute_xor_complexity_descr` (bmxor.h:178-286):
result `(match_type, digest, block_gain)`.  `x_descr.sb_gc` /
`x_descr.sb_bc` are the target block's per-wave descriptors filled by the
caller (`compute_complexity_descr`, bmxor.h:142-163) and are taken as
inputs, exactly as in the source.  The all-zero-gain branch
(bmxor.h:247-260) compares the zero-wave masks `d0` and `d0_x`; the
selection cascade (bmxor.h:262-285) picks GC only when its gain is
strictly greatest, BC when its gain is at least GC's and strictly above
iBC's, and falls through to iBC otherwise. -/
def compute_xor_complexity_descr (block xor_block sb_gc sb_bc : ℕ → ℕ) :
    XorComplementMatch × ℕ × ℕ :=
  let d0 := (2 ^ 64 - 1) ^^^ calc_block_digest0 block
  let p := xor_descr_pass2 block xor_block sb_gc sb_bc
  if p.block_gc_gain = 0 ∧ p.block_bc_gain = 0 ∧ p.block_ibc_gain = 0 then
    let d0_x := (2 ^ 64 - 1) ^^^ calc_block_digest0 xor_block
    if d0 = d0_x then (.e_xor_match_GC, d0, block_waves)
    else (.e_no_xor_match, 0, 0)
  else if p.block_gc_gain > p.block_bc_gain then
    if p.block_gc_gain > p.block_ibc_gain then
      (.e_xor_match_GC, p.gc_digest, p.block_gc_gain)
    else
      (.e_xor_match_iBC, p.ibc_digest, p.block_ibc_gain)
  else if p.block_bc_gain > p.block_ibc_gain then
    (.e_xor_match_BC, p.bc_digest, p.block_bc_gain)
  else
    (.e_xor_match_iBC, p.ibc_digest, p.block_ibc_gain)

/-- C7 counterexample: a target block whose wave 0 is the single word 1
against a zero reference, with wave-0 descriptors GC = 5, BC = 4.  The
XOR costs of the wave are GC = 2, BC = 1, so the GC gain and the BC gain
tie at 3 (iBC gain 0) — and the code picks BC, not the claimed
tie-preference GC. -/
theorem xor_descr_tie_counterexample :
    (xor_descr_pass2 (fun i => if i = 0 then 1 else 0) (fun _ => 0)
       (fun i => if i = 0 then 5 else 0)
       (fun i => if i = 0 then 4 else 0)).block_gc_gain = 3 ∧
    (xor_descr_pass2 (fun i => if i = 0 then 1 else 0) (fun _ => 0)
       (fun i => if i = 0 then 5 else 0)
       (fun i => if i = 0 then 4 else 0)).block_bc_gain = 3 ∧
    (xor_descr_pass2 (fun i => if i = 0 then 1 else 0) (fun _ => 0)
       (fun i => if i = 0 then 5 else 0)
       (fun i => if i = 0 then 4 else 0)).block_ibc_gain = 0 ∧
    (compute_xor_complexity_descr (fun i => if i = 0 then 1 else 0)
       (fun _ => 0) (fun i => if i = 0 then 5 else 0)
       (fun i => if i = 0 then 4 else 0)).1 =
      XorComplementMatch.e_xor_match_BC ∧
    XorComplementMatch.e_xor_match_BC ≠ XorComplementMatch.e_xor_match_GC := by
  refine ⟨by decide, by decide, by decide, by decide, by decide⟩

/-- C7 (amended): when the three gain accumulators are not all zero, the
chosen metric always carries the largest gain, but ties between equal
largest gains break in the preference order iBC over BC over GC (the
reverse of the claimed order): GC wins only when its gain is strictly
greatest, BC only when its gain is at least GC's and strictly above
iBC's, and iBC wins whenever its gain is weakly greatest. -/
theorem xor_descr_best_metric (block xor_block sb_gc sb_bc : ℕ → ℕ)
    (h : ¬((xor_descr_pass2 block xor_block sb_gc sb_bc).block_gc_gain = 0 ∧
           (xor_descr_pass2 block xor_block sb_gc sb_bc).block_bc_gain = 0 ∧
           (xor_descr_pass2 block xor_block sb_gc sb_bc).block_ibc_gain
             = 0)) :
    (compute_xor_complexity_descr block xor_block sb_gc sb_bc).2.2 =
      max (xor_descr_pass2 block xor_block sb_gc sb_bc).block_gc_gain
        (max (xor_descr_pass2 block xor_block sb_gc sb_bc).block_bc_gain
          (xor_descr_pass2 block xor_block sb_gc sb_bc).block_ibc_gain) ∧
    ((compute_xor_complexity_descr block xor_block sb_gc sb_bc).1 =
        XorComplementMatch.e_xor_match_GC →
      (xor_descr_pass2 block xor_block sb_gc sb_bc).block_gc_gain >
        (xor_descr_pass2 block xor_block sb_gc sb_bc).block_bc_gain ∧
      (xor_descr_pass2 block xor_block sb_gc sb_bc).block_gc_gain >
        (xor_descr_pass2 block xor_block sb_gc sb_bc).block_ibc_gain) ∧
    ((compute_xor_complexity_descr block xor_block sb_gc sb_bc).1 =
        XorComplementMatch.e_xor_match_BC →
      (xor_descr_pass2 block xor_block sb_gc sb_bc).block_bc_gain ≥
        (xor_descr_pass2 block xor_block sb_gc sb_bc).block_gc_gain ∧
      (xor_descr_pass2 block xor_block sb_gc sb_bc).block_bc_gain >
        (xor_descr_pass2 block xor_block sb_gc sb_bc).block_ibc_gain) ∧
    ((compute_xor_complexity_descr block xor_block sb_gc sb_bc).1 =
        XorComplementMatch.e_xor_match_iBC →
      (xor_descr_pass2 block xor_block sb_gc sb_bc).block_ibc_gain ≥
        (xor_descr_pass2 block xor_block sb_gc sb_bc).block_gc_gain ∧
      (xor_descr_pass2 block xor_block sb_gc sb_bc).block_ibc_gain ≥
        (xor_descr_pass2 block xor_block sb_gc sb_bc).block_bc_gain) := by
  set p := xor_descr_pass2 block xor_block sb_gc sb_bc with hp
  simp only [compute_xor_complexity_descr, ← hp, if_neg h]
  by_cases h1 : p.block_gc_gain > p.block_bc_gain <;>
    by_cases h2 : p.block_gc_gain > p.block_ibc_gain <;>
    by_cases h3 : p.block_bc_gain > p.block_ibc_gain <;>
    simp [h1, h2, h3] <;> omega

/-- Witness for `xor_descr_best_metric` at a concrete input. -/
theorem xor_descr_best_metric_witness :
    ¬((xor_descr_pass2 (fun i => if i = 0 then 1 else 0) (fun _ => 0)
         (fun i => if i = 0 then 5 else 0)
         (fun _ => 0)).block_gc_gain = 0 ∧
      (xor_descr_pass2 (fun i => if i = 0 then 1 else 0) (fun _ => 0)
         (fun i => if i = 0 then 5 else 0)
         (fun _ => 0)).block_bc_gain = 0 ∧
      (xor_descr_pass2 (fun i => if i = 0 then 1 else 0) (fun _ => 0)
         (fun i => if i = 0 then 5 else 0)
         (fun _ => 0)).block_ibc_gain = 0) ∧
    ((compute_xor_complexity_descr (fun i => if i = 0 then 1 else 0)
        (fun _ => 0) (fun i => if i = 0 then 5 else 0) (fun _ => 0)).2.2 =
      max (xor_descr_pass2 (fun i => if i = 0 then 1 else 0) (fun _ => 0)
            (fun i => if i = 0 then 5 else 0) (fun _ => 0)).block_gc_gain
        (max (xor_descr_pass2 (fun i => if i = 0 then 1 else 0) (fun _ => 0)
               (fun i => if i = 0 then 5 else 0) (fun _ => 0)).block_bc_gain
          (xor_descr_pass2 (fun i => if i = 0 then 1 else 0) (fun _ => 0)
            (fun i => if i = 0 then 5 else 0)
            (fun _ => 0)).block_ibc_gain) ∧
     ((compute_xor_complexity_descr (fun i => if i = 0 then 1 else 0)
         (fun _ => 0) (fun i => if i = 0 then 5 else 0) (fun _ => 0)).1 =
         XorComplementMatch.e_xor_match_GC →
       (xor_descr_pass2 (fun i => if i = 0 then 1 else 0) (fun _ => 0)
           (fun i => if i = 0 then 5 else 0) (fun _ => 0)).block_gc_gain >
         (xor_descr_pass2 (fun i => if i = 0 then 1 else 0) (fun _ => 0)
           (fun i => if i = 0 then 5 else 0) (fun _ => 0)).block_bc_gain ∧
       (xor_descr_pass2 (fun i => if i = 0 then 1 else 0) (fun _ => 0)
           (fun i => if i = 0 then 5 else 0) (fun _ => 0)).block_gc_gain >
         (xor_descr_pass2 (fun i => if i = 0 then 1 else 0) (fun _ => 0)
           (fun i => if i = 0 then 5 else 0)
           (fun _ => 0)).block_ibc_gain) ∧
     ((compute_xor_complexity_descr (fun i => if i = 0 then 1 else 0)
         (fun _ => 0) (fun i => if i = 0 then 5 else 0) (fun _ => 0)).1 =
         XorComplementMatch.e_xor_match_BC →
       (xor_descr_pass2 (fun i => if i = 0 then 1 else 0) (fun _ => 0)
           (fun i => if i = 0 then 5 else 0) (fun _ => 0)).block_bc_gain ≥
         (xor_descr_pass2 (fun i => if i = 0 then 1 else 0) (fun _ => 0)
           (fun i => if i = 0 then 5 else 0) (fun _ => 0)).block_gc_gain ∧
       (xor_descr_pass2 (fun i => if i = 0 then 1 else 0) (fun _ => 0)
           (fun i => if i = 0 then 5 else 0) (fun _ => 0)).block_bc_gain >
         (xor_descr_pass2 (fun i => if i = 0 then 1 else 0) (fun _ => 0)
           (fun i => if i = 0 then 5 else 0)
           (fun _ => 0)).block_ibc_gain) ∧
     ((compute_xor_complexity_descr (fun i => if i = 0 then 1 else 0)
         (fun _ => 0) (fun i => if i = 0 then 5 else 0) (fun _ => 0)).1 =
         XorComplementMatch.e_xor_match_iBC →
       (xor_descr_pass2 (fun i => if i = 0 then 1 else 0) (fun _ => 0)
           (fun i => if i = 0 then 5 else 0) (fun _ => 0)).block_ibc_gain ≥
         (xor_descr_pass2 (fun i => if i = 0 then 1 else 0) (fun _ => 0)
           (fun i => if i = 0 then 5 else 0) (fun _ => 0)).block_gc_gain ∧
       (xor_descr_pass2 (fun i => if i = 0 then 1 else 0) (fun _ => 0)
           (fun i => if i = 0 then 5 else 0) (fun _ => 0)).block_ibc_gain ≥
         (xor_descr_pass2 (fun i => if i = 0 then 1 else 0) (fun _ => 0)
           (fun i => if i = 0 then 5 else 0)
           (fun _ => 0)).block_bc_gain)) :=
  ⟨by decide,
   xor_descr_best_metric (fun i => if i = 0 then 1 else 0) (fun _ => 0)
     (fun i => if i = 0 then 5 else 0) (fun _ => 0) (by decide)⟩

/-- C8 counterexample: target wave 0 is the word 1 and the reference wave
0 is the word 2, with wave-0 descriptors GC = BC = 2.  All three gains
are zero and the two blocks differ (their XOR is the non-zero word 3),
yet the code emits a GC match with gain 64 and digest equal to the
zero-wave mask — neither an equality match nor the claimed no-match with
gain 0 and digest 0. -/
theorem xor_descr_zero_gain_counterexample :
    (xor_descr_pass2 (fun i => if i = 0 then 1 else 0)
       (fun i => if i = 0 then 2 else 0)
       (fun i => if i = 0 then 2 else 0)
       (fun i => if i = 0 then 2 else 0)) =
      { block_gc_gain := 0, block_bc_gain := 0, block_ibc_gain := 0,
        gc_digest := 0, bc_digest := 0, ibc_digest := 0 } ∧
    (compute_xor_complexity_descr (fun i => if i = 0 then 1 else 0)
       (fun i => if i = 0 then 2 else 0)
       (fun i => if i = 0 then 2 else 0)
       (fun i => if i = 0 then 2 else 0)) =
      (XorComplementMatch.e_xor_match_GC, 2 ^ 64 - 2, 64) ∧
    ((1 : ℕ) ^^^ 2 ≠ 0) ∧
    XorComplementMatch.e_xor_match_GC ≠ XorComplementMatch.e_xor_match_EQ := by
  refine ⟨by decide, by decide, by decide, by decide⟩

/-- C8 (amended): when the three gain accumulators are all zero, the code
emits a GC match (not an EQ match) with gain `block_waves = 64` and
digest equal to the target's zero-wave mask `d0` if and only if the two
blocks have identical zero-wave masks (`d0 == d0_x`); otherwise it
reports no-match with gain 0 and digest 0.  Bit-for-bit equality of the
blocks is sufficient for `d0 == d0_x` but not necessary. -/
theorem xor_descr_zero_gain (block xor_block sb_gc sb_bc : ℕ → ℕ)
    (h : (xor_descr_pass2 block xor_block sb_gc sb_bc).block_gc_gain = 0 ∧
         (xor_descr_pass2 block xor_block sb_gc sb_bc).block_bc_gain = 0 ∧
         (xor_descr_pass2 block xor_block sb_gc sb_bc).block_ibc_gain = 0) :
    compute_xor_complexity_descr block xor_block sb_gc sb_bc =
      (if (2 ^ 64 - 1) ^^^ calc_block_digest0 block =
          (2 ^ 64 - 1) ^^^ calc_block_digest0 xor_block then
        (XorComplementMatch.e_xor_match_GC,
         (2 ^ 64 - 1) ^^^ calc_block_digest0 block, block_waves)
      else (XorComplementMatch.e_no_xor_match, 0, 0)) := by
  simp only [compute_xor_complexity_descr, if_pos h]

/-- Witness for `xor_descr_zero_gain` at a concrete input. -/
theorem xor_descr_zero_gain_witness :
    ((xor_descr_pass2 (fun i => if i = 0 then 1 else 0)
        (fun i => if i = 0 then 2 else 0)
        (fun i => if i = 0 then 2 else 0)
        (fun i => if i = 0 then 2 else 0)).block_gc_gain = 0 ∧
     (xor_descr_pass2 (fun i => if i = 0 then 1 else 0)
        (fun i => if i = 0 then 2 else 0)
        (fun i => if i = 0 then 2 else 0)
        (fun i => if i = 0 then 2 else 0)).block_bc_gain = 0 ∧
     (xor_descr_pass2 (fun i => if i = 0 then 1 else 0)
        (fun i => if i = 0 then 2 else 0)
        (fun i => if i = 0 then 2 else 0)
        (fun i => if i = 0 then 2 else 0)).block_ibc_gain = 0) ∧
    compute_xor_complexity_descr (fun i => if i = 0 then 1 else 0)
        (fun i => if i = 0 then 2 else 0)
        (fun i => if i = 0 then 2 else 0)
        (fun i => if i = 0 then 2 else 0) =
      (if (2 ^ 64 - 1) ^^^
            calc_block_digest0 (fun i => if i = 0 then 1 else 0) =
          (2 ^ 64 - 1) ^^^
            calc_block_digest0 (fun i => if i = 0 then 2 else 0) then
        (XorComplementMatch.e_xor_match_GC,
         (2 ^ 64 - 1) ^^^
           calc_block_digest0 (fun i => if i = 0 then 1 else 0),
         block_waves)
      else (XorComplementMatch.e_no_xor_match, 0, 0)) :=
  ⟨by decide,
   xor_descr_zero_gain (fun i => if i = 0 then 1 else 0)
     (fun i => if i = 0 then 2 else 0)
     (fun i => if i = 0 then 2 else 0)
     (fun i => if i = 0 then 2 else 0) (by decide)⟩

/-- Modelled from the spec: §4.5, the first hard-coded sub-block border
(`bm::rs3_border0`, bmconst.h, not in the sources): one third of a block,
word-aligned (682 × 32 bits). -/
def rs3_border0 : ℕ := 21824

/-- Modelled from the spec: §4.5, the second sub-block border
(`bm::rs3_border1 = 2 * rs3_border0`). -/
def rs3_border1 : ℕ := 43648

/-- Modelled from the spec: `bm::rs3_half_span = rs3_border0 / 2`. -/
def rs3_half_span : ℕ := 10912

/-- Modelled from the spec: §4.1, `bm::bit_block_calc_count_range(l, r)` —
number of set bits of a block in `[l, r]` (bmfunc.h, not in the
sources).  A block is its set of in-block bit positions. -/
def countRange (t : Finset ℕ) (l r : ℕ) : ℕ :=
  (t.filter (fun b => l ≤ b ∧ b ≤ r)).card

/-- Modelled from the spec: §4.1, `bm::bit_block_calc_count_to(n)` —
number of set bits of a block in `[0, n]`. -/
def countTo (t : Finset ℕ) (n : ℕ) : ℕ :=
  (t.filter (fun b => b ≤ n)).card

/-- In-block content of logical block `nb`: the in-block offsets
(`p & bm::set_block_mask`) of the stored positions whose block index
(`p >> bm::set_block_shift`) is `nb`; shift and mask are division and
remainder by `B = 2^16`. -/
def blockBits (s : Finset ℕ) (nb : ℕ) : Finset ℕ :=
  (s.filter (fun p => p / gap_max_bits = nb)).image (fun p => p % gap_max_bits)

/-- Translation of the per-block count stored by `build_rs_index`
(bm.h:2628-2629, `blockman_.block_bitcount(block)`). -/
def rs_count (bv : BVector) (nb : ℕ) : ℕ :=
  (blockBits bv.bits nb).card

/-- Translation of the first sub-count stored by `build_rs_index`
(bm.h:2647-2648): bits of the block in `[0, rs3_border0]`. -/
def rs_sub_count_first (bv : BVector) (nb : ℕ) : ℕ :=
  countRange (blockBits bv.bits nb) 0 rs3_border0

/-- Translation of the second sub-count stored by `build_rs_index`
(bm.h:2649-2652): bits of the block in `[rs3_border0+1, rs3_border1]`. -/
def rs_sub_count_second (bv : BVector) (nb : ℕ) : ℕ :=
  countRange (blockBits bv.bits nb) (rs3_border0 + 1) rs3_border1

/-- Translation of the sizing of the rs-index in `build_rs_index`
(bm.h:2580-2597): an uninitialised or empty vector leaves the index
empty; otherwise the index covers blocks `0 .. nb_last` where `nb_last`
is the block of the last set bit (`find_reverse`), so `get_total()` is
`nb_last + 1`. -/
def rs_total (bv : BVector) : ℕ :=
  if ¬bv.isInit then 0
  else if h : bv.bits.Nonempty then bv.bits.max' h / gap_max_bits + 1
  else 0

/-- Modelled from the spec: §4.5, the running count `rcount[nb] =
Σ_{k ≤ nb} count[k]` maintained by the rs-index (bmrs.h, not in the
sources). -/
def rs_rcount (bv : BVector) (nb : ℕ) : ℕ :=
  ∑ k ∈ Finset.range (nb + 1), rs_count bv k

/-- Modelled from the spec: §4.5, `rs_index::count()` — the total number
of bits covered by the index (the running count of its last block). -/
def rs_count_total (bv : BVector) : ℕ :=
  if rs_total bv = 0 then 0 else rs_rcount bv (rs_total bv - 1)

/-- Modelled from the spec: §4.5, `rs_index::find_sub_range(nbit)` maps an
in-block position to its third `{0, 1, 2}` using the two borders. -/
def find_sub_range (nbit_right : ℕ) : ℕ :=
  if nbit_right ≤ rs3_border0 then 0
  else if nbit_right ≤ rs3_border1 then 1
  else 2

/-- Translation of `bvector::block_count_to(block, nb, nbit_right,
rs_idx)` (bm.h:2681-2794): in-block rank at `nbit_right` computed from
the two stored sub-counts (`first`, `second`, read from
`rs_idx.sub_count(nb)`) and the stored block count (`cnt`, read from
`rs_idx.count(nb)`), choosing for each third whether to count forward
from the nearest border or backward from the next one. -/
def block_count_to (blk : Finset ℕ) (first second nbit_right cnt : ℕ) : ℕ :=
  let sub_range := find_sub_range nbit_right
  if sub_range = 0 then
    if nbit_right ≤ rs3_border0 / 2 then countTo blk nbit_right
    else if nbit_right = rs3_border0 then first
    else first - countRange blk (nbit_right + 1) rs3_border0
  else if sub_range = 1 then
    if nbit_right ≤ rs3_border0 + rs3_half_span then
      countRange blk (rs3_border0 + 1) nbit_right + first
    else if nbit_right = rs3_border1 then first + second
    else (first + second) - countRange blk (nbit_right + 1) rs3_border1
  else
    if nbit_right ≤ rs3_border1 + rs3_half_span then
      countRange blk (rs3_border1 + 1) nbit_right + (first + second)
    else if nbit_right = gap_max_bits - 1 then cnt
    else cnt - countRange blk (nbit_right + 1) (gap_max_bits - 1)

/-- Translation of `bvector::count_to(right, rs_idx)` (bm.h:2798-2848)
with the rs-index built from the vector itself by `build_rs_index`: an
uninitialised vector counts 0; a block index beyond the rs total returns
the index's total count; otherwise the running count of the preceding
blocks plus the in-block count — 0 for a NULL block, `block_count_to`
for a materialised one (the GAP and FULL branches compute the same value,
as the source itself asserts at bm.h:2831 and reads off at
bm.h:2836-2838). -/
def count_to (bv : BVector) (right : ℕ) : ℕ :=
  if ¬bv.isInit then 0
  else
    let nblock_right := right / gap_max_bits
    let nbit_right := right % gap_max_bits
    if nblock_right ≥ rs_total bv then rs_count_total bv
    else
      let cnt := if nblock_right ≠ 0 then rs_rcount bv (nblock_right - 1)
                 else 0
      let block := blockBits bv.bits nblock_right
      if block = ∅ then cnt
      else cnt + block_count_to block (rs_sub_count_first bv nblock_right)
             (rs_sub_count_second bv nblock_right) nbit_right
             (rs_count bv nblock_right)

/-- Modelled from the spec: §4.1, `bm::block_find_rank(block, rank, from,
pos)` (bmfunc.h, not in the sources): "scan from `from`, decrement
`target` for each set bit; on reaching zero ... set `pos` to the hitting
bit".  The scan runs over at most the remaining bits of the block. -/
def block_find_rank_scan (blk : Finset ℕ) : ℕ → ℕ → ℕ → Option ℕ
  | _, _, 0 => none
  | nbit, target, fuel + 1 =>
    if nbit ∈ blk then
      if target ≤ 1 then some nbit
      else block_find_rank_scan blk (nbit + 1) (target - 1) fuel
    else block_find_rank_scan blk (nbit + 1) target fuel

/-- Modelled from the spec: §4.1, in-block select starting at `nbit_from`
with `gap_max_bits - nbit_from` positions left to scan. -/
def block_find_rank (blk : Finset ℕ) (target nbit_from : ℕ) : Option ℕ :=
  block_find_rank_scan blk nbit_from target (gap_max_bits - nbit_from)

/-- Modelled from the spec: §4.5, `rs_index::find(rank, &nb, &sub_from)`
(bmrs.h, not in the sources): "binary search in rcount to find the first
block whose rcount ≥ rank; then choose sub-range from
subcount0/subcount1; return the residual rank within the chosen
sub-range and the sub-range's starting bit as sub_from". -/
def rs_find (bv : BVector) (rank : ℕ) : Option (ℕ × ℕ × ℕ) :=
  let cand := (Finset.range (rs_total bv)).filter
    (fun m => rank ≤ rs_rcount bv m)
  if hc : cand.Nonempty then
    let nb := cand.min' hc
    let base := if nb ≠ 0 then rs_rcount bv (nb - 1) else 0
    let r0 := rank - base
    let s0 := rs_sub_count_first bv nb
    let s1 := rs_sub_count_second bv nb
    if r0 > s0 + s1 then some (r0 - (s0 + s1), nb, rs3_border1 + 1)
    else if r0 > s0 then some (r0 - s0, nb, rs3_border0 + 1)
    else some (r0, nb, 0)
  else none

/-- Translation of `bvector::select(rank_in, pos, rs_idx)`
(bm.h:4101-4133): reject rank 0, an uninitialised vector, or a rank above
the index total; `rs_idx.find` yields the block, the residual rank and
the sub-range start; `bm::block_find_rank` finishes inside the block and
the absolute position is `bit_pos + nb * 65536`. -/
def select (bv : BVector) (rank_in : ℕ) : Option ℕ :=
  if rank_in = 0 ∨ ¬bv.isInit ∨ rs_count_total bv < rank_in then none
  else
    match rs_find bv rank_in with
    | none => none
    | some (residual, nb, sub_from) =>
      match block_find_rank (blockBits bv.bits nb) residual sub_from with
      | none => none
      | some bit_pos => some (bit_pos + nb * gap_max_bits)

/-- Helper: splitting an in-range bit count at a middle position. -/
theorem countRange_split (t : Finset ℕ) {l m r : ℕ} (h1 : l ≤ m)
    (h2 : m ≤ r) :
    countRange t l r = countRange t l m + countRange t (m + 1) r := by
  unfold countRange
  have hdisj : Disjoint (t.filter (fun b => l ≤ b ∧ b ≤ m))
      (t.filter (fun b => m + 1 ≤ b ∧ b ≤ r)) := by
    rw [Finset.disjoint_left]
    intro b hb1 hb2
    simp only [Finset.mem_filter] at hb1 hb2
    omega
  rw [← Finset.card_union_of_disjoint hdisj, ← Finset.filter_or]
  apply congrArg
  apply Finset.filter_congr
  intro b _
  constructor
  · intro hb; omega
  · intro hb; omega

/-- Helper: a prefix count is an in-range count from zero. -/
theorem countTo_eq_countRange (t : Finset ℕ) (n : ℕ) :
    countTo t n = countRange t 0 n := by
  unfold countTo countRange
  apply congrArg
  apply Finset.filter_congr
  intro b _
  constructor
  · intro hb; omega
  · intro hb; omega

/-- Helper: splitting a prefix count at a middle position. -/
theorem countTo_split (t : Finset ℕ) {m r : ℕ} (h : m ≤ r) :
    countTo t r = countTo t m + countRange t (m + 1) r := by
  rw [countTo_eq_countRange, countTo_eq_countRange,
      countRange_split t (Nat.zero_le m) h]

/-- Helper: the whole card of a block is its prefix count to the last
in-block position. -/
theorem card_eq_countTo (t : Finset ℕ)
    (hB : ∀ b ∈ t, b < gap_max_bits) :
    t.card = countTo t (gap_max_bits - 1) := by
  unfold countTo
  apply congrArg
  symm
  apply Finset.filter_true_of_mem
  intro b hb
  have := hB b hb
  simp only [gap_max_bits] at *
  omega

/-- Helper: membership in a block's in-block content. -/
theorem mem_blockBits {s : Finset ℕ} {nb x : ℕ} :
    x ∈ blockBits s nb ↔
      x < gap_max_bits ∧ nb * gap_max_bits + x ∈ s := by
  unfold blockBits
  simp only [Finset.mem_image, Finset.mem_filter]
  constructor
  · rintro ⟨p, ⟨hp, hdiv⟩, rfl⟩
    have h2 : nb * gap_max_bits + p % gap_max_bits = p := by
      simp only [gap_max_bits] at hdiv ⊢
      omega
    refine ⟨?_, by rw [h2]; exact hp⟩
    simp only [gap_max_bits]
    omega
  · rintro ⟨hx, hmem⟩
    refine ⟨nb * gap_max_bits + x, ⟨hmem, ?_⟩, ?_⟩
    · simp only [gap_max_bits] at hx ⊢
      omega
    · simp only [gap_max_bits] at hx ⊢
      omega

/-- Helper: elements of a block's content are in-block positions. -/
theorem blockBits_lt {s : Finset ℕ} {nb : ℕ} :
    ∀ b ∈ blockBits s nb, b < gap_max_bits := by
  intro b hb
  exact (mem_blockBits.mp hb).1

/-- Helper: the per-block count as a count over the vector's positions. -/
theorem rs_count_eq (bv : BVector) (nb : ℕ) :
    rs_count bv nb =
      (bv.bits.filter (fun p => p / gap_max_bits = nb)).card := by
  unfold rs_count blockBits
  apply Finset.card_image_of_injOn
  intro p hp q hq hpq
  simp only [Finset.coe_filter, Set.mem_setOf_eq] at hp hq
  simp only [gap_max_bits] at hp hq hpq
  omega

/-- Helper: a block-content prefix count as a count over the vector's
positions. -/
theorem countTo_blockBits (s : Finset ℕ) (nb x : ℕ) :
    countTo (blockBits s nb) x =
      (s.filter (fun p => p / gap_max_bits = nb ∧
        p % gap_max_bits ≤ x)).card := by
  unfold countTo blockBits
  rw [Finset.filter_image, Finset.filter_filter]
  apply Finset.card_image_of_injOn
  intro p hp q hq hpq
  simp only [Finset.coe_filter, Set.mem_setOf_eq] at hp hq
  simp only [gap_max_bits] at hp hq hpq
  omega

/-- Helper: card of a filter over a disjunction of disjoint predicates. -/
theorem card_filter_or_disjoint (s : Finset ℕ) (P Q : ℕ → Prop)
    [DecidablePred P] [DecidablePred Q] (h : ∀ b, ¬(P b ∧ Q b)) :
    (s.filter (fun b => P b ∨ Q b)).card =
      (s.filter P).card + (s.filter Q).card := by
  have hdisj : Disjoint (s.filter P) (s.filter Q) := by
    rw [Finset.disjoint_left]
    intro b hb1 hb2
    simp only [Finset.mem_filter] at hb1 hb2
    exact h b ⟨hb1.2, hb2.2⟩
  rw [← Finset.card_union_of_disjoint hdisj, ← Finset.filter_or]

/-- Helper: the running count covers all positions below the end of block
`m`. -/
theorem rs_rcount_eq (bv : BVector) (m : ℕ) :
    rs_rcount bv m =
      (bv.bits.filter (fun p => p < (m + 1) * gap_max_bits)).card := by
  induction m with
  | zero =>
    unfold rs_rcount
    rw [Finset.sum_range_one, rs_count_eq]
    apply congrArg
    apply Finset.filter_congr
    intro p _
    simp only [gap_max_bits]
    constructor
    · intro hp; omega
    · intro hp; omega
  | succ m ih =>
    have hstep : rs_rcount bv (m + 1) = rs_rcount bv m + rs_count bv (m + 1) := by
      unfold rs_rcount
      rw [Finset.sum_range_succ]
    rw [hstep, ih, rs_count_eq]
    rw [← card_filter_or_disjoint bv.bits
      (fun p => p < (m + 1) * gap_max_bits)
      (fun p => p / gap_max_bits = m + 1)
      (by intro b; simp only [gap_max_bits]; omega)]
    apply congrArg
    apply Finset.filter_congr
    intro p _
    simp only [gap_max_bits]
    constructor
    · intro hp; omega
    · intro hp; omega

/-- Helper: `block_count_to` computed from a block's true sub-counts is
the block's prefix count — the arithmetic of every branch of the
bm.h:2701-2790 switch is exact. -/
theorem block_count_to_eq (blk : Finset ℕ) (nbit : ℕ)
    (hB : ∀ b ∈ blk, b < gap_max_bits) (hn : nbit < gap_max_bits) :
    block_count_to blk (countRange blk 0 rs3_border0)
      (countRange blk (rs3_border0 + 1) rs3_border1) nbit blk.card =
      countTo blk nbit := by
  have hfs : countRange blk 0 rs3_border1 =
      countRange blk 0 rs3_border0 +
        countRange blk (rs3_border0 + 1) rs3_border1 :=
    countRange_split blk (Nat.zero_le _)
      (by norm_num [rs3_border0, rs3_border1])
  have hcard : blk.card = countTo blk (gap_max_bits - 1) :=
    card_eq_countTo blk hB
  have hct := countTo_eq_countRange blk nbit
  by_cases hb0 : nbit ≤ rs3_border0
  · by_cases hhalf : nbit ≤ rs3_border0 / 2
    · simp only [block_count_to, find_sub_range, if_pos hb0,
        if_neg (show ¬(0:ℕ) = 1 by omega), if_true, if_false, if_pos hhalf]
    · by_cases heq : nbit = rs3_border0
      · simp only [block_count_to, find_sub_range, if_pos hb0,
          if_neg (show ¬(0:ℕ) = 1 by omega), if_true, if_false,
          if_neg hhalf, if_pos heq]
        rw [hct, heq]
      · simp only [block_count_to, find_sub_range, if_pos hb0,
          if_neg (show ¬(0:ℕ) = 1 by omega), if_true, if_false,
          if_neg hhalf, if_neg heq]
        have hsplit : countRange blk 0 rs3_border0 =
            countRange blk 0 nbit + countRange blk (nbit + 1) rs3_border0 :=
          countRange_split blk (Nat.zero_le nbit) (by omega)
        omega
  · by_cases hb1 : nbit ≤ rs3_border1
    · have hred : find_sub_range nbit = 1 := by
        simp [find_sub_range, hb0, hb1]
      by_cases hhalf : nbit ≤ rs3_border0 + rs3_half_span
      · simp only [block_count_to, hred, if_neg (show ¬(1:ℕ) = 0 by omega),
          if_true, if_false, if_pos hhalf]
        have hsplit := countTo_split blk (show rs3_border0 ≤ nbit by omega)
        rw [countTo_eq_countRange blk rs3_border0] at hsplit
        omega
      · by_cases heq : nbit = rs3_border1
        · simp only [block_count_to, hred, if_neg (show ¬(1:ℕ) = 0 by omega),
            if_true, if_false, if_neg hhalf, if_pos heq]
          rw [hct, heq]
          omega
        · simp only [block_count_to, hred, if_neg (show ¬(1:ℕ) = 0 by omega),
            if_true, if_false, if_neg hhalf, if_neg heq]
          have hsplit : countRange blk 0 rs3_border1 =
              countRange blk 0 nbit + countRange blk (nbit + 1) rs3_border1 :=
            countRange_split blk (Nat.zero_le nbit) (by omega)
          omega
    · have hred : find_sub_range nbit = 2 := by
        simp [find_sub_range, hb0, hb1]
      by_cases hhalf : nbit ≤ rs3_border1 + rs3_half_span
      · simp only [block_count_to, hred, if_neg (show ¬(2:ℕ) = 0 by omega),
          if_neg (show ¬(2:ℕ) = 1 by omega), if_true, if_false, if_pos hhalf]
        have hsplit := countTo_split blk (show rs3_border1 ≤ nbit by omega)
        rw [countTo_eq_countRange blk rs3_border1] at hsplit
        omega
      · by_cases heq : nbit = gap_max_bits - 1
        · simp only [block_count_to, hred, if_neg (show ¬(2:ℕ) = 0 by omega),
            if_neg (show ¬(2:ℕ) = 1 by omega), if_true, if_false,
            if_neg hhalf, if_pos heq]
          rw [hcard, heq]
        · simp only [block_count_to, hred, if_neg (show ¬(2:ℕ) = 0 by omega),
            if_neg (show ¬(2:ℕ) = 1 by omega), if_true, if_false,
            if_neg hhalf, if_neg heq]
          have hsplit := countTo_split blk
            (show nbit ≤ gap_max_bits - 1 by
              simp only [gap_max_bits] at hn ⊢; omega)
          omega

/-- Helper: the rs-index total count is the vector's population count. -/
theorem rs_count_total_eq (bv : BVector) (hwf : WellFormed bv) :
    rs_count_total bv = bv.bits.card := by
  unfold rs_count_total rs_total
  by_cases hi : bv.isInit
  · simp only [hi, not_true, if_false]
    by_cases hne : bv.bits.Nonempty
    · rw [dif_pos hne, if_neg (Nat.succ_ne_zero _), Nat.add_sub_cancel,
          rs_rcount_eq]
      apply congrArg
      apply Finset.filter_true_of_mem
      intro p hp
      have hmax := Finset.le_max' bv.bits p hp
      simp only [gap_max_bits]
      omega
    · rw [dif_neg hne]
      simp only [if_pos rfl]
      rw [Finset.not_nonempty_iff_eq_empty] at hne
      rw [hne]
      rfl
  · have hb := wf_bits_empty bv hwf hi
    simp [hi, hb]

/-- Helper: the running count of the blocks before block `nb`, as read by
`count_to` (bm.h:2818). -/
theorem rcount_prefix (bv : BVector) (nb : ℕ) :
    (if nb ≠ 0 then rs_rcount bv (nb - 1) else 0) =
      (bv.bits.filter (fun p => p < nb * gap_max_bits)).card := by
  by_cases h0 : nb = 0
  · subst h0
    simp
  · rw [if_pos h0, rs_rcount_eq]
    have hsub : nb - 1 + 1 = nb := by omega
    rw [hsub]

/-- Helper: splitting a global rank at the start of its block. -/
theorem rank_block_split (s : Finset ℕ) (nb nbit : ℕ)
    (hn : nbit < gap_max_bits) :
    (s.filter (fun p => p ≤ nb * gap_max_bits + nbit)).card =
      (s.filter (fun p => p < nb * gap_max_bits)).card +
      (s.filter (fun p => p / gap_max_bits = nb ∧
        p % gap_max_bits ≤ nbit)).card := by
  rw [← card_filter_or_disjoint s
    (fun p => p < nb * gap_max_bits)
    (fun p => p / gap_max_bits = nb ∧ p % gap_max_bits ≤ nbit)
    (by intro b; simp only [gap_max_bits]; omega)]
  apply congrArg
  apply Finset.filter_congr
  intro p _
  simp only [gap_max_bits] at hn ⊢
  constructor
  · intro hp; omega
  · intro hp; omega

/-- Helper: `count_to` with an rs-index built from the vector computes the
exact rank, `|{p ∈ bits | p ≤ right}|`. -/
theorem count_to_eq_rank (bv : BVector) (hwf : WellFormed bv) (right : ℕ) :
    count_to bv right = (bv.bits.filter (fun p => p ≤ right)).card := by
  by_cases hi : bv.isInit
  · simp only [count_to, hi, not_true, eq_self_iff_true, if_false]
    set nb := right / gap_max_bits with hnb
    set nbit := right % gap_max_bits with hnbit
    have hn : nbit < gap_max_bits := by
      rw [hnbit]
      exact Nat.mod_lt _ (by norm_num [gap_max_bits])
    have hr : nb * gap_max_bits + nbit = right := by
      rw [hnb, hnbit]
      simp only [gap_max_bits]
      omega
    by_cases htot : nb ≥ rs_total bv
    · rw [if_pos htot, rs_count_total_eq bv hwf]
      have hmem : ∀ p ∈ bv.bits, p ≤ right := by
        intro p hp
        have hne : bv.bits.Nonempty := ⟨p, hp⟩
        have hrt : rs_total bv = bv.bits.max' hne / gap_max_bits + 1 := by
          unfold rs_total
          rw [if_neg (by simp [hi]), dif_pos hne]
        rw [hrt] at htot
        have hmax := Finset.le_max' bv.bits p hp
        rw [hnb] at htot
        simp only [gap_max_bits] at htot
        omega
      rw [Finset.filter_true_of_mem hmem]
    · rw [if_neg htot]
      by_cases hemp : blockBits bv.bits nb = ∅
      · rw [if_pos hemp, rcount_prefix]
        rw [← hr, rank_block_split bv.bits nb nbit hn]
        suffices h : (bv.bits.filter (fun p => p / gap_max_bits = nb ∧
            p % gap_max_bits ≤ nbit)).card = 0 by omega
        rw [Finset.card_eq_zero, Finset.filter_eq_empty_iff]
        intro p hp
        rintro ⟨hdiv, hmod⟩
        have hpe : nb * gap_max_bits + p % gap_max_bits = p := by
          simp only [gap_max_bits] at hdiv ⊢
          omega
        have hmem : p % gap_max_bits ∈ blockBits bv.bits nb :=
          mem_blockBits.mpr
            ⟨Nat.mod_lt _ (by norm_num [gap_max_bits]), by rw [hpe]; exact hp⟩
        rw [hemp] at hmem
        exact absurd hmem (Finset.not_mem_empty _)
      · rw [if_neg hemp, rcount_prefix]
        unfold rs_sub_count_first rs_sub_count_second rs_count
        rw [block_count_to_eq (blockBits bv.bits nb) nbit blockBits_lt hn,
            countTo_blockBits]
        rw [← hr, rank_block_split bv.bits nb nbit hn]
  · have hb := wf_bits_empty bv hwf hi
    simp [count_to, hi, hb]

/-- Helper: peeling the first position off an in-range count. -/
theorem countRange_succ_left (t : Finset ℕ) {start q : ℕ} (h : start ≤ q) :
    countRange t start q =
      (if start ∈ t then 1 else 0) + countRange t (start + 1) q := by
  unfold countRange
  have hsplit : (t.filter (fun b => start ≤ b ∧ b ≤ q)).card =
      (t.filter (fun b => b = start)).card +
      (t.filter (fun b => start + 1 ≤ b ∧ b ≤ q)).card := by
    rw [← card_filter_or_disjoint t (fun b => b = start)
        (fun b => start + 1 ≤ b ∧ b ≤ q) (by intro b; omega)]
    apply congrArg
    apply Finset.filter_congr
    intro b _
    constructor
    · intro hb; omega
    · intro hb; omega
  rw [hsplit, Finset.filter_eq']
  by_cases hs : start ∈ t
  · rw [if_pos hs, if_pos hs, Finset.card_singleton]
  · rw [if_neg hs, if_neg hs, Finset.card_empty]

/-- Helper: peeling the first position off a bounded-window count. -/
theorem card_band_succ_left (t : Finset ℕ) (start len : ℕ) :
    (t.filter (fun b => start ≤ b ∧ b < start + (len + 1))).card =
      (if start ∈ t then 1 else 0) +
      (t.filter (fun b => start + 1 ≤ b ∧ b < (start + 1) + len)).card := by
  have hsplit : (t.filter (fun b => start ≤ b ∧ b < start + (len + 1))).card =
      (t.filter (fun b => b = start)).card +
      (t.filter (fun b => start + 1 ≤ b ∧ b < (start + 1) + len)).card := by
    rw [← card_filter_or_disjoint t (fun b => b = start)
        (fun b => start + 1 ≤ b ∧ b < (start + 1) + len) (by intro b; omega)]
    apply congrArg
    apply Finset.filter_congr
    intro b _
    constructor
    · intro hb; omega
    · intro hb; omega
  rw [hsplit, Finset.filter_eq']
  by_cases hs : start ∈ t
  · rw [if_pos hs, if_pos hs, Finset.card_singleton]
  · rw [if_neg hs, if_neg hs, Finset.card_empty]

/-- Helper: the rank-in-block scan finds exactly the position whose
in-block rank from `start` equals the target, whenever enough set bits
remain in the scanned window. -/
theorem block_find_rank_scan_spec (blk : Finset ℕ) :
    ∀ fuel start target : ℕ, 1 ≤ target →
      target ≤ (blk.filter (fun b => start ≤ b ∧ b < start + fuel)).card →
      ∃ q, block_find_rank_scan blk start target fuel = some q ∧
        q ∈ blk ∧ start ≤ q ∧ q < start + fuel ∧
        countRange blk start q = target := by
  intro fuel
  induction fuel with
  | zero =>
    intro start target h1 h2
    exfalso
    have hz : (blk.filter (fun b => start ≤ b ∧ b < start + 0)).card = 0 := by
      rw [Finset.card_eq_zero, Finset.filter_eq_empty_iff]
      intro b _
      omega
    omega
  | succ fuel ih =>
    intro start target h1 h2
    rw [card_band_succ_left blk start fuel] at h2
    by_cases hmem : start ∈ blk
    · rw [if_pos hmem] at h2
      by_cases ht1 : target ≤ 1
      · have htv : target = 1 := by omega
        refine ⟨start, ?_, hmem, le_refl _, by omega, ?_⟩
        · simp [block_find_rank_scan, hmem, ht1]
        · rw [htv]
          unfold countRange
          have hone : blk.filter (fun b => start ≤ b ∧ b ≤ start) =
              {start} := by
            ext b
            simp only [Finset.mem_filter, Finset.mem_singleton]
            constructor
            · rintro ⟨_, hb1, hb2⟩
              omega
            · rintro rfl
              exact ⟨hmem, le_refl _, le_refl _⟩
          rw [hone, Finset.card_singleton]
      · obtain ⟨q, hscan, hqmem, hq1, hq2, hcr⟩ :=
          ih (start + 1) (target - 1) (by omega) (by omega)
        refine ⟨q, ?_, hqmem, by omega, by omega, ?_⟩
        · simp only [block_find_rank_scan, if_pos hmem, if_neg ht1]
          exact hscan
        · rw [countRange_succ_left blk (show start ≤ q by omega),
              if_pos hmem, hcr]
          omega
    · rw [if_neg hmem] at h2
      obtain ⟨q, hscan, hqmem, hq1, hq2, hcr⟩ :=
        ih (start + 1) target h1 (by omega)
      refine ⟨q, ?_, hqmem, by omega, by omega, ?_⟩
      · simp only [block_find_rank_scan, if_neg hmem]
        exact hscan
      · rw [countRange_succ_left blk (show start ≤ q by omega),
            if_neg hmem, hcr]
        omega

/-- Helper: the running count extends by one block at a time. -/
theorem rs_rcount_succ_eq (bv : BVector) (nb : ℕ) :
    rs_rcount bv nb =
      (if nb ≠ 0 then rs_rcount bv (nb - 1) else 0) + rs_count bv nb := by
  by_cases h0 : nb = 0
  · subst h0
    simp [rs_rcount, Finset.sum_range_one]
  · rw [if_pos h0]
    have hpred : nb - 1 + 1 = nb := by omega
    have hh : rs_rcount bv ((nb - 1) + 1) =
        rs_rcount bv (nb - 1) + rs_count bv ((nb - 1) + 1) := by
      unfold rs_rcount
      rw [Finset.sum_range_succ]
    rw [hpred] at hh
    exact hh

/-- Helper: evaluating `select` once the guard, the index search and the
in-block scan are known. -/
theorem select_eval (bv : BVector) (r residual nb sub_from q : ℕ)
    (hguard : ¬(r = 0 ∨ ¬bv.isInit ∨ rs_count_total bv < r))
    (hfind : rs_find bv r = some (residual, nb, sub_from))
    (hq : block_find_rank (blockBits bv.bits nb) residual sub_from = some q) :
    select bv r = some (q + nb * gap_max_bits) := by
  unfold select
  rw [if_neg hguard, hfind]
  simp only [hq]

/-- Helper: `select` returns, for every rank `1 ≤ r ≤ count`, a stored
position whose exact rank is `r`. -/
theorem select_spec (bv : BVector) (hwf : WellFormed bv) (r : ℕ)
    (h1 : 1 ≤ r) (h2 : r ≤ bv.bits.card) :
    ∃ p, select bv r = some p ∧ p ∈ bv.bits ∧
      (bv.bits.filter (fun x => x ≤ p)).card = r := by
  have hne : bv.bits.Nonempty := by
    rw [← Finset.card_pos]
    omega
  have hi : bv.isInit = true := by
    by_contra hni
    rw [wf_bits_empty bv hwf hni] at hne
    exact absurd hne (by simp)
  have hrct : rs_count_total bv = bv.bits.card := rs_count_total_eq bv hwf
  have htotpos : 0 < rs_total bv := by
    unfold rs_total
    rw [if_neg (by simp [hi]), dif_pos hne]
    exact Nat.succ_pos _
  have hrlast : r ≤ rs_rcount bv (rs_total bv - 1) := by
    have hh : rs_count_total bv = rs_rcount bv (rs_total bv - 1) := by
      unfold rs_count_total
      rw [if_neg (by omega)]
    omega
  have hguard : ¬(r = 0 ∨ ¬bv.isInit ∨ rs_count_total bv < r) := by
    push_neg
    refine ⟨by omega, by simp [hi], by omega⟩
  set cand := (Finset.range (rs_total bv)).filter
    (fun m => r ≤ rs_rcount bv m) with hcand
  have hcne : cand.Nonempty := by
    refine ⟨rs_total bv - 1, ?_⟩
    rw [hcand]
    simp only [Finset.mem_filter, Finset.mem_range]
    exact ⟨by omega, hrlast⟩
  set nb := cand.min' hcne with hnbdef
  have hnbmem : nb ∈ cand := Finset.min'_mem _ _
  have hnbtot : nb < rs_total bv := by
    rw [hcand] at hnbmem
    simp only [Finset.mem_filter, Finset.mem_range] at hnbmem
    exact hnbmem.1
  have hnbr : r ≤ rs_rcount bv nb := by
    rw [hcand] at hnbmem
    simp only [Finset.mem_filter, Finset.mem_range] at hnbmem
    exact hnbmem.2
  have hmin : ∀ k, k < nb → rs_rcount bv k < r := by
    intro k hk
    by_contra hge
    push_neg at hge
    have hkc : k ∈ cand := by
      rw [hcand]
      simp only [Finset.mem_filter, Finset.mem_range]
      exact ⟨by omega, hge⟩
    have := Finset.min'_le cand k hkc
    omega
  set base := (if nb ≠ 0 then rs_rcount bv (nb - 1) else 0) with hbase
  have hbaselt : base < r := by
    rw [hbase]
    by_cases h0 : nb = 0
    · rw [if_neg (by simp [h0])]
      omega
    · rw [if_pos h0]
      exact hmin (nb - 1) (by omega)
  have hrc_succ : rs_rcount bv nb = base + rs_count bv nb := by
    rw [hbase, rs_rcount_succ_eq bv nb]
  set r0 := r - base with hr0
  have hr0pos : 1 ≤ r0 := by omega
  have hr0le : r0 ≤ rs_count bv nb := by omega
  set blk := blockBits bv.bits nb with hblk
  have hB : ∀ b ∈ blk, b < gap_max_bits := by
    rw [hblk]
    exact blockBits_lt
  set s0 := rs_sub_count_first bv nb with hs0
  set s1 := rs_sub_count_second bv nb with hs1
  have hs0c : s0 = countRange blk 0 rs3_border0 := by
    rw [hs0, hblk]
    rfl
  have hs1c : s1 = countRange blk (rs3_border0 + 1) rs3_border1 := by
    rw [hs1, hblk]
    rfl
  have hcntc : rs_count bv nb = blk.card := by
    rw [hblk]
    rfl
  have hsum1 : countTo blk rs3_border0 = s0 := by
    rw [countTo_eq_countRange, hs0c]
  have hsum2 : countTo blk rs3_border1 = s0 + s1 := by
    rw [countTo_split blk (show rs3_border0 ≤ rs3_border1 by
          norm_num [rs3_border0, rs3_border1]), hsum1, hs1c]
  have hcnt_split : rs_count bv nb =
      s0 + s1 + countRange blk (rs3_border1 + 1) (gap_max_bits - 1) := by
    rw [hcntc, card_eq_countTo blk hB,
        countTo_split blk (show rs3_border1 ≤ gap_max_bits - 1 by
          norm_num [rs3_border1, gap_max_bits]), hsum2]
  have happly : ∀ start target : ℕ, start ≤ gap_max_bits → 1 ≤ target →
      target ≤ countRange blk start (gap_max_bits - 1) →
      ∃ q, block_find_rank blk target start = some q ∧ q ∈ blk ∧
        start ≤ q ∧ countRange blk start q = target := by
    intro start target hstart h1t h2t
    have hcardeq : (blk.filter
        (fun b => start ≤ b ∧ b < start + (gap_max_bits - start))).card =
        countRange blk start (gap_max_bits - 1) := by
      unfold countRange
      apply congrArg
      apply Finset.filter_congr
      intro b _
      simp only [gap_max_bits] at hstart ⊢
      constructor
      · intro hb; omega
      · intro hb; omega
    obtain ⟨q, hscan, hqmem, hqa, hqb, hqcr⟩ :=
      block_find_rank_scan_spec blk (gap_max_bits - start) start target h1t
        (by rw [hcardeq]; exact h2t)
    exact ⟨q, hscan, hqmem, hqa, hqcr⟩
  have hrank : ∀ q, q ∈ blk → countTo blk q = r0 →
      (bv.bits.filter (fun x => x ≤ q + nb * gap_max_bits)).card = r := by
    intro q hqblk hqrank
    have hqB : q < gap_max_bits := hB q hqblk
    have hsplit := rank_block_split bv.bits nb q hqB
    rw [← countTo_blockBits, ← rcount_prefix bv nb] at hsplit
    rw [Nat.add_comm q (nb * gap_max_bits), hsplit, ← hblk, hqrank, ← hbase]
    omega
  have hmem_of : ∀ q, q ∈ blk → q + nb * gap_max_bits ∈ bv.bits := by
    intro q hqblk
    rw [hblk] at hqblk
    have := (mem_blockBits.mp hqblk).2
    rw [Nat.add_comm q (nb * gap_max_bits)]
    exact this
  have hfind0 : rs_find bv r =
      (if r0 > s0 + s1 then some (r0 - (s0 + s1), nb, rs3_border1 + 1)
       else if r0 > s0 then some (r0 - s0, nb, rs3_border0 + 1)
       else some (r0, nb, 0)) := by
    simp only [rs_find]
    rw [← hcand, dif_pos hcne, ← hnbdef, ← hbase, ← hr0, ← hs0, ← hs1]
  by_cases hc1 : r0 > s0 + s1
  · obtain ⟨q, hqfind, hqmem, hqge, hqcr⟩ :=
      happly (rs3_border1 + 1) (r0 - (s0 + s1))
        (by norm_num [rs3_border1, gap_max_bits]) (by omega) (by omega)
    have hto : countTo blk q = r0 := by
      rw [countTo_split blk (show rs3_border1 ≤ q by omega), hsum2, hqcr]
      omega
    refine ⟨q + nb * gap_max_bits, ?_, hmem_of q hqmem, hrank q hqmem hto⟩
    apply select_eval bv r (r0 - (s0 + s1)) nb (rs3_border1 + 1) q hguard
    · rw [hfind0, if_pos hc1]
    · rw [← hblk]
      exact hqfind
  · by_cases hc2 : r0 > s0
    · obtain ⟨q, hqfind, hqmem, hqge, hqcr⟩ :=
        happly (rs3_border0 + 1) (r0 - s0)
          (by norm_num [rs3_border0, gap_max_bits]) (by omega)
          (by
            have hmid : countRange blk (rs3_border0 + 1) (gap_max_bits - 1) =
                countRange blk (rs3_border0 + 1) rs3_border1 +
                  countRange blk (rs3_border1 + 1) (gap_max_bits - 1) :=
              countRange_split blk
                (by norm_num [rs3_border0, rs3_border1])
                (by norm_num [rs3_border1, gap_max_bits])
            rw [hmid, ← hs1c]
            omega)
      have hto : countTo blk q = r0 := by
        rw [countTo_split blk (show rs3_border0 ≤ q by omega), hsum1, hqcr]
        omega
      refine ⟨q + nb * gap_max_bits, ?_, hmem_of q hqmem, hrank q hqmem hto⟩
      apply select_eval bv r (r0 - s0) nb (rs3_border0 + 1) q hguard
      · rw [hfind0, if_neg hc1, if_pos hc2]
      · rw [← hblk]
        exact hqfind
    · obtain ⟨q, hqfind, hqmem, hqge, hqcr⟩ :=
        happly 0 r0 (by norm_num [gap_max_bits]) (by omega)
          (by
            have hall : countRange blk 0 (gap_max_bits - 1) =
                countTo blk (gap_max_bits - 1) :=
              (countTo_eq_countRange blk (gap_max_bits - 1)).symm
            rw [hall, ← card_eq_countTo blk hB, ← hcntc]
            omega)
      have hto : countTo blk q = r0 := by
        rw [countTo_eq_countRange]
        exact hqcr
      refine ⟨q + nb * gap_max_bits, ?_, hmem_of q hqmem, hrank q hqmem hto⟩
      apply select_eval bv r r0 nb 0 q hguard
      · rw [hfind0, if_neg hc1, if_neg hc2]
      · rw [← hblk]
        exact hqfind

/-- Helper: a stored position is determined by its rank. -/
theorem rank_inj (s : Finset ℕ) {p i : ℕ} (hp : p ∈ s) (hi : i ∈ s)
    (h : (s.filter (fun q => q ≤ p)).card =
      (s.filter (fun q => q ≤ i)).card) : p = i := by
  have key : ∀ a b : ℕ, b ∈ s → a < b →
      (s.filter (fun q => q ≤ a)).card < (s.filter (fun q => q ≤ b)).card := by
    intro a b hb hab
    apply Finset.card_lt_card
    rw [Finset.ssubset_iff_of_subset]
    · refine ⟨b, Finset.mem_filter.mpr ⟨hb, le_refl b⟩, ?_⟩
      rw [Finset.mem_filter]
      rintro ⟨_, hba⟩
      omega
    · intro x hx
      rw [Finset.mem_filter] at hx ⊢
      exact ⟨hx.1, by omega⟩
  rcases lt_trichotomy p i with hlt | heq | hgt
  · have := key p i hi hlt
    omega
  · exact heq
  · have := key i p hp hgt
    omega

/-- C5: with an rs-index built by `build_rs_index`, rank and select are
mutually inverse — for every stored position `i`,
`select(rank(i)) = i`, and for every `1 ≤ r ≤ count()`,
`rank(select(r)) = r`, where `rank(n)` is `count_to(n, rs)`. -/
theorem rank_select_inverse (bv : BVector) (hwf : WellFormed bv) :
    (∀ i ∈ bv.bits, select bv (count_to bv i) = some i) ∧
    (∀ r : ℕ, 1 ≤ r → r ≤ bv.bits.card →
      ∃ p, select bv r = some p ∧ count_to bv p = r) := by
  constructor
  · intro i hi
    have hr := count_to_eq_rank bv hwf i
    have h1 : 1 ≤ count_to bv i := by
      rw [hr]
      have hmem : i ∈ bv.bits.filter (fun p => p ≤ i) :=
        Finset.mem_filter.mpr ⟨hi, le_refl i⟩
      have := Finset.card_pos.mpr ⟨i, hmem⟩
      omega
    have h2 : count_to bv i ≤ bv.bits.card := by
      rw [hr]
      exact Finset.card_le_card (Finset.filter_subset _ _)
    obtain ⟨p, hsel, hpmem, hpr⟩ := select_spec bv hwf (count_to bv i) h1 h2
    have hpi : p = i := rank_inj bv.bits hpmem hi (by rw [hpr, hr])
    rw [hpi] at hsel
    exact hsel
  · intro r h1 h2
    obtain ⟨p, hsel, hpmem, hpr⟩ := select_spec bv hwf r h1 h2
    exact ⟨p, hsel, by rw [count_to_eq_rank bv hwf p, hpr]⟩

/-- Witness for `rank_select_inverse` at a concrete input. -/
theorem rank_select_inverse_witness :
    WellFormed { isInit := true, size := 1048576, bits := {0, 17, 300} } ∧
    select { isInit := true, size := 1048576, bits := {0, 17, 300} }
      (count_to { isInit := true, size := 1048576, bits := {0, 17, 300} } 17)
      = some 17 :=
  ⟨fun h => by simp_all,
   (rank_select_inverse
      { isInit := true, size := 1048576, bits := {0, 17, 300} }
      (fun h => by simp_all)).1 17 (by decide)⟩

end BM
